import Mathlib

/-!
Verification development for the spectrochempy_gui processing-pipeline subsystem
(controller.py and model.py).  The parameter tree, its saved state, the processing
action list, the replay engine, the region registry and the project save logic are
embedded as executable Lean definitions translated from the Python sources.
The vendored pyqtgraph parameter base class (spectrochempy_gui/pyqtgraph, not part
of the provided sources) is modelled from the specification where its behaviour is
needed; every such definition carries a doc comment saying so.
-/

namespace SCPGui

/-- Parameter values.  Python stores all of these as plain values inside the
parameter tree; region span strings are kept structured here so that the string
operations performed on them by the source (split on the two-character separator,
eval of a tuple literal, the one-decimal format) become total Lean functions with
explicit failure:
`s x` is a generic string value (the literal string "undefined" is `s "undefined"`),
`pair lo hi` is the string produced by the format of low and high with one decimal,
`dimPair d lo hi` is a string of the form dim, then the greater-than sign and a
space, then the parenthesised pair, as expected by split in the controller. -/
inductive PVal where
  | b (x : Bool)
  | s (x : String)
  | r (x : Rat)
  | pair (lo hi : Rat)
  | dimPair (dim : String) (lo hi : Rat)
  | null
deriving DecidableEq, Repr

/-- The test for the literal value "undefined" used throughout the source. -/
def PVal.isUndefined : PVal → Bool
  | .s u => u == "undefined"
  | _ => false

/-- Model of the expression in controller.getProcessingActions, line 561:
eval of element 1 of the split of the value on the separator.  Only a value of
the dim-prefixed form has a second element; on every other value Python raises
IndexError, modelled as `none`. -/
def splitGtEval : PVal → Option (Rat × Rat)
  | .dimPair _ lo hi => some (lo, hi)
  | _ => none

/-- Model of controller.RegionGroup.addRegion, line 87: unpacking the split of the
value into dim and span, then eval of the span.  A value without the separator
yields a single-element list, so the unpack raises ValueError (`none` here). -/
def splitGtUnpack : PVal → Option (String × (Rat × Rat))
  | .dimPair d lo hi => some (d, (lo, hi))
  | _ => none

/-- Model of eval of a parameter value of the low-comma-high form
(model.Regions.addRegion, line 322).  Any other string fails to evaluate to a
pair. -/
def evalPairVal : PVal → Option (Rat × Rat)
  | .pair lo hi => some (lo, hi)
  | _ => none

/-- Rounding to one decimal place, modelling the Python one-decimal float format
used for span write-back. -/
def round1 (x : Rat) : Rat := (Int.floor (10 * x + 1/2) : Rat) / 10

/-- The formatted span value written back into a region parameter
(model.Regions.addRegion line 323 and model.Regions.regionChanged line 359). -/
def fmtPair (lo hi : Rat) : PVal := .pair (round1 lo) (round1 hi)

/-- Whether the first character list starts with the second, written over
character lists so that it evaluates by kernel reduction. -/
def charsStartsWith : List Char → List Char → Bool
  | _, [] => true
  | [], _ :: _ => false
  | c :: cs, d :: ds => c == d && charsStartsWith cs ds

/-- Whether the first character list contains the second as a contiguous
subsequence. -/
def charsContain : List Char → List Char → Bool
  | [], pat => pat.isEmpty
  | s@(_ :: rest), pat => charsStartsWith s pat || charsContain rest pat

/-- Python substring containment, the in operator on strings. -/
def containsStr (s pat : String) : Bool := charsContain s.data pat.data

/-- The characters before the first occurrence of the separator (the whole list
when the separator is absent). -/
def takeUntilChar : List Char → Char → List Char
  | [], _ => []
  | c :: cs, sep => if c == sep then [] else c :: takeUntilChar cs sep

/-- Python split on a one-character separator followed by taking element 0:
the piece of the string before the first occurrence of the separator. -/
def splitHead (s : String) (sep : Char) : String := String.mk (takeUntilChar s.data sep)

/-- Python str.strip: the string with leading and trailing whitespace removed. -/
def strTrim (s : String) : String :=
  String.mk (((s.data.dropWhile Char.isWhitespace).reverse.dropWhile Char.isWhitespace).reverse)

/-- Python str.lower. -/
def strToLower (s : String) : String := String.mk (s.data.map Char.toLower)

/-- Map a fallible function over a list, failing when any element fails (the
behaviour of a Python loop whose body may raise). -/
def mapOpt {α β : Type} (f : α → Option β) : List α → Option (List β)
  | [] => some []
  | a :: l =>
    match f a, mapOpt f l with
    | some b, some bs => some (b :: bs)
    | _, _ => none

/-- Parameter names.  The source builds names by string formatting and takes them
apart by splitting; keeping the generated shapes structured makes those string
operations total functions:
`key k` is a plain catalog name such as "output", "kind" or "regiongroup";
`step k i` is the generated step name, key then the hash sign then the index
(ProcessGroup.addNew line 150); `span i j` is the generated region child name,
index dot index (RegionGroup.addNew line 103).  Catalog keys contain no hash
sign, which makes this representation injective on the names the program
produces. -/
inductive PName where
  | key (k : String)
  | step (k : String) (i : Nat)
  | span (i : Nat) (j : Nat)
deriving DecidableEq, Repr

/-- The string a PName denotes. -/
def pnameToString : PName → String
  | .key k => k
  | .step k i => k ++ "#" ++ toString i
  | .span i j => toString i ++ "." ++ toString j

/-- Element 0 of the split of a name on the hash sign. -/
def stepKeyOf : PName → String
  | .key k => k
  | .step k _ => k
  | .span i _ => toString i ++ "."

/-- Unpacking a name into exactly two pieces around the hash sign
(restoreState line 174).  A plain name has no hash sign, so the unpack raises
ValueError, modelled as `none`. -/
def splitHash2 : PName → Option (String × Nat)
  | .step k i => some (k, i)
  | _ => none

/-- Python startswith on the denoted string (used to recognise region-definition
steps by name, e.g. controller lines 139 and 556). -/
def nameStartsWith (n : PName) (p : String) : Bool :=
  charsStartsWith (pnameToString n).data p.data

/-- The saved-state tree: the nested mapping of value, expanded flag and ordered
children produced by Parameter.saveState and consumed by restoreState
(spec section 6: saved pipeline state). -/
inductive StateTree where
  | mk (value : PVal) (expanded : Bool) (children : List (PName × StateTree))

/-- The value stored at a state node. -/
def StateTree.value : StateTree → PVal
  | .mk v _ _ => v

/-- The expanded flag stored at a state node. -/
def StateTree.expanded : StateTree → Bool
  | .mk _ e _ => e

/-- The ordered children of a state node. -/
def StateTree.children : StateTree → List (PName × StateTree)
  | .mk _ _ cs => cs

/-- Dictionary lookup among the children of a state node (Python indexing into
the children mapping; absence is a KeyError at the call sites). -/
def StateTree.find (t : StateTree) (k : PName) : Option StateTree :=
  (t.children.find? (fun c => c.1 == k)).map (fun c => c.2)

/-- Replace the child stored under a key of a state node. -/
def StateTree.setChild (t : StateTree) (k : PName) (v : StateTree) : StateTree :=
  .mk t.value t.expanded (t.children.map (fun c => if c.1 == k then (k, v) else c))

mutual

/-- Structural equality of state trees, modelling the Python inequality test on
saved states in Controller.change line 339. -/
def StateTree.beq : StateTree → StateTree → Bool
  | .mk v e cs, .mk v2 e2 cs2 => v == v2 && e == e2 && StateTree.beqChildren cs cs2

/-- Structural equality of child lists of state trees. -/
def StateTree.beqChildren : List (PName × StateTree) → List (PName × StateTree) → Bool
  | [], [] => true
  | (n, t) :: r, (n2, t2) :: r2 => n == n2 && StateTree.beq t t2 && StateTree.beqChildren r r2
  | _, _ => false

end

/-- A region child parameter: the name generated by RegionGroup.addNew and the
span value string. -/
structure SpanChild where
  name : PName
  value : PVal
deriving DecidableEq, Repr

/-- The region-specific children of a define-regions step: the kind parameter
(with its readonly flag), and the regiongroup subtree with its expansion flag,
its running child index (RegionGroup.current_index) and its ordered span
children. -/
structure RegionBody where
  kind : String
  kindReadonly : Bool
  rgExpanded : Bool
  rgIndex : Nat
  spans : List SpanChild
deriving DecidableEq, Repr

/-- The children of a processing step: an ordered list of plain typed parameters
for an ordinary step, or the kind plus regiongroup structure for a
define-regions step. -/
inductive StepBody where
  | plain (ps : List (String × PVal))
  | region (r : RegionBody)
deriving DecidableEq, Repr

/-- One processing step node: generated name, action reference from the catalog,
enabled flag (the boolean value of the step parameter), expansion flag and
children. -/
structure Step where
  name : PName
  action : String
  value : Bool
  expanded : Bool
  body : StepBody
deriving DecidableEq, Repr

/-- The processing pipeline group: the ordered child steps (the terminal output
step normally last) and the running index used to generate step names
(ProcessGroup.current_index, one counter for the whole group). -/
structure ProcessGroup where
  childs : List Step
  currentIndex : Nat
deriving DecidableEq, Repr

/-- Modelled from the spec (section 4.1): one entry of the processor catalog read
from processors.yaml, a file that is not part of the provided sources.  Each
template carries the action reference and the default child parameters; per
getProcessors every template starts unchecked (value false) and collapsed. -/
structure Template where
  action : String
  params : List (String × PVal)
deriving DecidableEq, Repr

/-- Modelled from the spec: the processor catalog as an ordered mapping from
template key to template. -/
abbrev Catalog := List (String × Template)

/-- Dictionary lookup in the catalog (Python indexing; absence is a KeyError). -/
def Catalog.find (cat : Catalog) (key : String) : Option Template :=
  (List.find? (fun c => c.1 == key) cat).map (fun c => c.2)

/-- Python list.insert at a position (an index at or beyond the length appends). -/
def insertAt {α : Type} : Nat → α → List α → List α
  | 0, a, l => a :: l
  | _ + 1, a, [] => [a]
  | n + 1, a, x :: xs => x :: insertAt n a xs

/-- The children created for a new step: a define-regions step gets the kind
parameter (initially "undefined") and an empty regiongroup; any other step gets
the default parameters of its template. -/
def mkStepBody (key : String) (t : Template) : StepBody :=
  if key == "define regions" then .region ⟨"undefined", false, false, 0, []⟩
  else .plain t.params

/-- ProcessGroup.addNew (controller.py lines 147-157): look the template up in
the catalog (KeyError if absent), generate the name from the key and the
group-wide running index, insert the new child at position length minus one
(immediately before the last child, which is the terminal output step), bump the
index and return the new child. -/
def ProcessGroup.addNew (cat : Catalog) (g : ProcessGroup) (key : String) :
    Option (ProcessGroup × Step) :=
  match cat.find key with
  | none => none
  | some t =>
    let child : Step :=
      { name := .step key g.currentIndex, action := t.action,
        value := false, expanded := false, body := mkStepBody key t }
    some ({ childs := insertAt (g.childs.length - 1) child g.childs,
            currentIndex := g.currentIndex + 1 }, child)

/-- Modelled from the spec (section 6): the saved form of one region span child,
name mapped to a leaf node holding the value string. -/
def saveSpan (sp : SpanChild) : PName × StateTree := (sp.name, .mk sp.value false [])

/-- Modelled from the spec (section 6): the saved children of a step.  A
define-regions step nests the kind value and the regiongroup with one child per
span; an ordinary step nests one child per parameter holding its value. -/
def saveStepBody : StepBody → List (PName × StateTree)
  | .plain ps => ps.map (fun p => (.key p.1, .mk p.2 false []))
  | .region r =>
      [(.key "kind", .mk (.s r.kind) false []),
       (.key "regiongroup", .mk .null r.rgExpanded (r.spans.map saveSpan))]

/-- Modelled from the spec (section 6): the saved form of one step, its name
mapped to value, expanded flag and saved children. -/
def saveStep (s : Step) : PName × StateTree := (s.name, .mk (.b s.value) s.expanded (saveStepBody s.body))

/-- Modelled from the spec (section 6): Parameter.saveState of the processing
group, one child entry per step in order. -/
def saveGroup (g : ProcessGroup) : StateTree := .mk .null true (g.childs.map saveStep)

/-- Modelled from the spec: the saved state of the whole parameter tree, wrapping
the processing group under the params root (Controller.initialize line 765,
Controller.performProcessing line 514). -/
def saveParams (g : ProcessGroup) : StateTree := .mk .null true [(.key "processing", saveGroup g)]

/-- Modelled from the spec (section 4.2): the generic pyqtgraph
Parameter.restoreState (the vendored base class is not part of the provided
sources) sets each existing child parameter to the value recorded for it in the
state, keeping its default when the state has no entry for it. -/
def restorePlainParams (ps : List (String × PVal)) (t : StateTree) : List (String × PVal) :=
  ps.map (fun p =>
    match t.find (.key p.1) with
    | some ct => (p.1, ct.value)
    | none => p)

/-- Modelled from the spec (section 4.2): how the generic restore updates one
existing step from its state entry: the enabled value (a bool), the expansion
flag, and the values of its plain children.  Region children are never restored
by the base class here because ProcessGroup.restoreState removes every
non-output entry from the state first. -/
def updateStepFromState (s : Step) (t : StateTree) : Option Step :=
  match t.value with
  | .b v =>
      let body :=
        match s.body with
        | .plain ps => StepBody.plain (restorePlainParams ps t)
        | .region r => StepBody.region r
      some { s with value := v, expanded := t.expanded, body := body }
  | _ => none

/-- RegionGroup.addNew (controller.py lines 95-115) restricted to the data it
touches: refuse when the kind is still "undefined" (the source shows a warning
dialog and returns None); otherwise generate the child name from element 1 of
the split of the parent step name on the hash sign and the running region index,
create the child with the given span value (or the literal "undefined" when none
is supplied), bump the index and return it. -/
def RegionGroup.addNewSpan (stepName : PName) (r : RegionBody) (span : Option PVal) :
    Option (RegionBody × SpanChild) :=
  if r.kind == "undefined" then none
  else
    match splitHash2 stepName with
    | none => none
    | some (_, i) =>
      let sp : SpanChild := ⟨.span i r.rgIndex, span.getD (.s "undefined")⟩
      some ({ r with rgIndex := r.rgIndex + 1, spans := r.spans ++ [sp] }, sp)

/-- The loop of ProcessGroup.restoreState lines 185-187: for every saved span
entry call RegionGroup.addNew with the saved value, then set the expansion flag
of the regiongroup to the saved one (the source sets it through the parent of
the returned child on each iteration, so the flag is only written when at least
one span is restored).  A failure of addNew is a real exception, not the
KeyError the surrounding try block catches. -/
def addSpansLoop (stepName : PName) (exp : Bool) :
    RegionBody → List (PName × StateTree) → Option RegionBody
  | r, [] => some r
  | r, (_, t) :: rest =>
      match RegionGroup.addNewSpan stepName r (some t.value) with
      | none => none
      | some (r1, _) => addSpansLoop stepName exp { r1 with rgExpanded := exp } rest

/-- ProcessGroup.restoreState lines 178-189, the define-regions part: set the
stored kind on the fresh child (a KeyError on the kind entry propagates, it is
outside the try block), lock it readonly when it is not "undefined", then try to
re-add every saved span; a KeyError from a missing regiongroup entry is caught
and the spans are simply skipped. -/
def restoreRegionChild (st : StateTree) (child : Step) : Option Step :=
  match child.body with
  | .plain _ => none
  | .region r =>
    match st.find (.key "kind") with
    | none => none
    | some kt =>
      match kt.value with
      | .s kv =>
        let r1 : RegionBody :=
          { r with kind := kv, kindReadonly := r.kindReadonly || (kv != "undefined") }
        match st.find (.key "regiongroup") with
        | none => some { child with body := .region r1 }
        | some rgt =>
          match addSpansLoop child.name rgt.expanded r1 rgt.children with
          | none => none
          | some r2 => some { child with body := .region r2 }
      | _ => none

/-- Replace the step with the given name inside the group (the source mutates
the child object returned by addNew in place; names generated by addNew are
fresh, so replacing by name is the same update). -/
def ProcessGroup.setStep (g : ProcessGroup) (n : PName) (s : Step) : ProcessGroup :=
  { g with childs := g.childs.map (fun c => if c.name == n then s else c) }

/-- The loop of ProcessGroup.restoreState lines 173-189: for every removed state
entry in order, split its key on the hash sign (exactly two pieces, else
ValueError), re-create the step through addNew, re-apply the saved value (a
bool) and expansion flag, and for a define-regions step restore kind and spans. -/
def restoreLoop (cat : Catalog) :
    ProcessGroup → List (PName × StateTree) → Option ProcessGroup
  | g, [] => some g
  | g, (key, st) :: rest =>
    match splitHash2 key with
    | none => none
    | some (item, _) =>
      match g.addNew cat item with
      | none => none
      | some (g1, child) =>
        match st.value with
        | .b v =>
          let child1 : Step := { child with value := v, expanded := st.expanded }
          match (if item == "define regions" then restoreRegionChild st child1 else some child1) with
          | none => none
          | some child2 => restoreLoop cat (g1.setStep child.name child2) rest
        | _ => none

/-- ProcessGroup.restoreState (controller.py lines 160-191): split the state
children into the non-output entries (removed from the state, order preserved)
and the output entry; let the generic restore rebuild the group from the pruned
state, so that only the terminal output step remains (modelled from the spec:
the vendored base restore, called with its defaults, removes the children absent
from the state and updates the matching one); then re-add every removed step via
addNew.  The group-wide running index is deliberately not reset. -/
def ProcessGroup.restoreState (cat : Catalog) (g : ProcessGroup) (state : StateTree) :
    Option ProcessGroup :=
  let stateChildren := state.children.filter (fun c => c.1 != .key "output")
  let kept := state.children.filter (fun c => c.1 == .key "output")
  let base : Option (List Step) := mapOpt (fun c =>
    match g.childs.find? (fun s => s.name == c.1) with
    | some s => updateStepFromState s c.2
    | none => none) kept
  match base with
  | none => none
  | some baseSteps =>
      restoreLoop cat { childs := baseSteps, currentIndex := g.currentIndex } stateChildren

/-- A keyword-argument value in an action call: either an ordinary parameter
value or, for the range entry of a define-regions action, the collected list of
low-high pairs. -/
inductive KwVal where
  | v (x : PVal)
  | ranges (rs : List (Rat × Rat))
deriving DecidableEq, Repr

/-- One emitted action: the action reference string of the step and its keyword
arguments. -/
structure ActionCall where
  action : String
  kwargs : List (String × KwVal)
deriving DecidableEq, Repr

/-- Controller.getProcessingActions (controller.py lines 539-569): iterate the
children of the processing group in order, skip every unchecked step, and for
each remaining step emit its action reference with keyword arguments: for a step
whose name does not start with "define regions" one entry per child parameter
mapping its name to its value (a region-shaped body reached through this branch
would expose its kind value and the regiongroup group, whose group value is
None); for a define-regions step the kind plus the ranges obtained by eval of
element 1 of the split of each span value, which raises IndexError on a value
without the separator. -/
def getProcessingActions (g : ProcessGroup) : Except String (List ActionCall) :=
  g.childs.foldlM (fun acc item =>
    if !item.value then .ok acc
    else do
      let params : List (String × KwVal) ←
        if !(nameStartsWith item.name "define regions") then
          match item.body with
          | .plain ps => .ok (ps.map (fun p => (p.1, KwVal.v p.2)))
          | .region r => .ok [("kind", KwVal.v (.s r.kind)), ("regiongroup", KwVal.v .null)]
        else
          match item.body with
          | .region r => do
              let rs ← r.spans.mapM (fun sp =>
                match splitGtEval sp.value with
                | some pr => Except.ok pr
                | none => Except.error "IndexError: list index out of range")
              .ok [("kind", KwVal.v (.s r.kind)), ("range", KwVal.ranges rs)]
          | .plain _ => .error "KeyError: kind"
      .ok (acc ++ [ActionCall.mk item.action params])) []

/-- Two-dimensional data, rows of rationals. -/
abbrev DataArr := List (List Rat)

/-- Two-dimensional mask, rows of booleans. -/
abbrev MaskArr := List (List Bool)

/-- The dataset fields this subsystem reads and writes (spec section 3): name,
raw data and mask, the nullable processed pair (None and the Python False
default are both modelled as `none`), the transposition flag and the persisted
saved-state blob. -/
structure Dataset where
  name : String
  data : Option DataArr
  mask : Option MaskArr
  processeddata : Option DataArr
  processedmask : Option MaskArr
  transposed : Bool
  state : StateTree

/-- Modelled from the spec (section 6, collaborator interfaces): the external
transpose operation flips the data and mask and toggles the flag; the processed
fields are separate attributes and are not touched by it. -/
def transposeDs (ds : Dataset) : Dataset :=
  { ds with data := ds.data.map List.transpose, mask := ds.mask.map List.transpose,
            transposed := !ds.transposed }

/-- Modelled from the spec (section 4.3): the external copy operation produces a
full copy; in this pure embedding the copy is the value itself. -/
def Dataset.copy (ds : Dataset) : Dataset := ds

/-- The interpretation of action references: an environment mapping the
reference and keyword arguments to the external library function, which may
raise (the error case) and may return the Python None (the inner `none`); the
dataset argument is likewise optional because the source threads whatever the
previous call returned. -/
abbrev Env := String → Option Dataset → List (String × KwVal) → Except String (Option Dataset)

/-- The action loop of Controller.propagateActions (lines 582-599): thread the
working value through the referenced functions in order, skipping entries that
are None and counting the calls actually made (nprocess). -/
def runActions (env : Env) : Option Dataset → List (Option ActionCall) →
    Except String (Nat × Option Dataset)
  | cur, [] => .ok (0, cur)
  | cur, none :: rest => runActions env cur rest
  | cur, some a :: rest => do
      let nxt ← env a.action cur a.kwargs
      let (n, fin) ← runActions env nxt rest
      .ok (n + 1, fin)

/-- Controller.propagateActions (controller.py lines 572-611): an action list
that is the one-element list None returns the Python None; otherwise replay
starts from a full copy of the dataset and threads it through the actions; when
at least one call was made and the result is not None, the final data and mask
are written onto the processed fields of the original dataset and, when the
result is transposed, the original dataset is re-transposed to match; otherwise
the processed fields are cleared to None and False. -/
def propagateActions (env : Env) (dataset : Dataset) (actions : List (Option ActionCall)) :
    Except String (Option Dataset) :=
  if actions == [none] then .ok none
  else do
    let (nprocess, fin) ← runActions env (some dataset.copy) actions
    match fin with
    | some n =>
      if nprocess != 0 then
        let ds1 := { dataset with processeddata := n.data, processedmask := n.mask }
        .ok (some (if n.transposed then transposeDs ds1 else ds1))
      else
        .ok (some { dataset with processeddata := none, processedmask := none })
    | none =>
        .ok (some { dataset with processeddata := none, processedmask := none })

/-- The observable outcome of Controller.performProcessing: the dataset as the
in-place mutations left it, and the exception that escaped, if any. -/
structure PPOut where
  dataset : Dataset
  error : Option String

/-- Controller.performProcessing (controller.py lines 509-536): save the current
parameter state onto the dataset first, collect the actions (an exception here
escapes before the processed fields are touched), reset the processed fields to
None and False, un-transpose the dataset if it was transposed, and replay when
the action list is nonempty.  An exception raised during replay escapes after
those resets, so the mutations made so far persist.  The dead branch in which
propagateActions returns the Python None would crash on the attribute access
that follows. -/
def performProcessing (env : Env) (ds : Dataset) (g : ProcessGroup) : PPOut :=
  let ds1 := { ds with state := saveParams g }
  match getProcessingActions g with
  | .error e => ⟨ds1, some e⟩
  | .ok actions =>
    let ds2 := { ds1 with processeddata := none, processedmask := none }
    let ds3 := if ds2.transposed then transposeDs ds2 else ds2
    if actions.isEmpty then ⟨ds3, none⟩
    else
      match propagateActions env ds3 (actions.map some) with
      | .error e => ⟨ds3, some e⟩
      | .ok none => ⟨ds3, some "AttributeError: NoneType has no attribute transposed"⟩
      | .ok (some ds4) => ⟨ds4, none⟩

/-- The project model (spec section 3): a name and the ordered sub-projects,
each holding its ordered datasets. -/
structure Proj where
  name : String
  subs : List (String × List Dataset)

/-- Sub-project lookup by name (Python indexing; absence is a KeyError). -/
def Proj.findSub (p : Proj) (n : String) : Option (List Dataset) :=
  (p.subs.find? (fun e => e.1 == n)).map (fun e => e.2)

/-- Replace the dataset list of the named sub-project. -/
def Proj.setSub (p : Proj) (n : String) (dss : List Dataset) : Proj :=
  { p with subs := p.subs.map (fun e => if e.1 == n then (n, dss) else e) }

/-- Project.updateDataset (model.py lines 234-251): a dataset whose name
contains "untitled" is silently ignored; otherwise the sub-project named by the
piece of the name before the slash is looked up (KeyError if absent) and the
dataset either replaces the entry with the same name or is added, and the dirty
flag is raised. -/
def updateDataset (p : Proj) (dirty : Bool) (ds : Dataset) : Option (Proj × Bool) :=
  if containsStr ds.name "untitled" then some (p, dirty)
  else
    let subproj := splitHead ds.name '/'
    match p.findSub subproj with
    | none => none
    | some dss =>
      if dss.any (fun d => d.name == ds.name) then
        some (p.setSub subproj (dss.map (fun d => if d.name == ds.name then ds else d)), true)
      else
        some (p.setSub subproj (dss ++ [ds]), true)

/-- The in-place edit of the saved output entry in Controller.processingOutput
lines 631-632: the nested name value becomes "untitled" and the step value
becomes False.  A missing name child is a KeyError. -/
def fixOutputEntry (t : StateTree) : Option StateTree :=
  match t.find (.key "name") with
  | none => none
  | some nt =>
    some (StateTree.mk (PVal.b false) t.expanded
      (t.children.map (fun c =>
        if c.1 == PName.key "name" then (c.1, StateTree.mk (PVal.s "untitled") nt.expanded nt.children)
        else c)))

/-- The state-stripping loop of Controller.processingOutput lines 627-632: in
the saved processing children keep only the entries whose stripped key is
"output" and re-write their name and value; every other processing step entry is
deleted.  A state without a processing entry is a KeyError. -/
def stripOutputState (st : StateTree) : Option StateTree :=
  match st.find (.key "processing") with
  | none => none
  | some proc => do
    let kept := proc.children.filter (fun c => strTrim (pnameToString c.1) == "output")
    let fixed ← mapOpt (fun c => (fixOutputEntry c.2).map (fun t2 => (c.1, t2))) kept
    some (st.setChild (.key "processing") (StateTree.mk proc.value proc.expanded fixed))

/-- Controller.processingOutput (controller.py lines 614-641): copy the dataset,
rename the copy to the sub-project name (the piece before the slash) joined with
the new name, strip every non-output step from the saved state of the copy,
promote the processed data and mask into the primary data and mask of the copy,
clear its processed fields, register the copy through updateDataset, and return
the original dataset. -/
def processingOutput (p : Proj) (dirty : Bool) (ds : Dataset) (name : String) :
    Option (Proj × Bool × Dataset) := do
  let supname := splitHead ds.name '/'
  let new0 := { ds.copy with name := supname ++ "/" ++ name }
  let st ← stripOutputState new0.state
  let new1 : Dataset :=
    { new0 with state := st, data := new0.processeddata, mask := new0.processedmask,
                processeddata := none, processedmask := none }
  let (p1, d1) ← updateDataset p dirty new1
  some (p1, d1, ds)

/-- One entry of the change list delivered by the tree to Controller.change:
the name of the top-level group the changed parameter belongs to (the source
recovers it by walking the parent chain up to the params root), the parameter
name, the change kind string and its data payload. -/
structure Chg where
  topGroup : String
  pname : PName
  kind : String
  data : Option String
deriving DecidableEq, Repr

/-- The controller state the change handler reads and writes: the two
re-entrancy guards, the selected dataset (None when nothing is selected) and the
project dirty flag. -/
structure CtrlState where
  isProcessing : Bool
  isInitializing : Bool
  dataset : Option Dataset
  dirty : Bool

/-- The externally visible side effects of handling one change event. -/
inductive Effect where
  | stateSaved
  | markedDirty
  | redraw
  | readonlySet
  | moved
  | processed
deriving DecidableEq, Repr

/-- Controller.processingChanged (controller.py lines 374-398): a childAdded on
the processing group itself and a value change setting a non-undefined kind
(which only locks the kind parameter) return without processing; a contextMenu
move request reorders the parameters first; every remaining path runs
performProcessing and re-assigns the dataset, which redraws.  An exception
escaping performProcessing aborts the handler (`none`). -/
def processingChanged (env : Env) (st : CtrlState) (ds : Dataset) (g : ProcessGroup)
    (c : Chg) (effs : List Effect) : Option (CtrlState × List Effect) :=
  if pnameToString c.pname == "processing" && c.kind == "childAdded" then some (st, effs)
  else if pnameToString c.pname == "kind" && c.kind == "value" && c.data != some "undefined" then
    some (st, effs ++ [Effect.readonlySet])
  else
    let effs1 :=
      if c.kind == "contextMenu" && (c.data == some "before" || c.data == some "after") then
        effs ++ [Effect.moved]
      else effs
    let pp := performProcessing env ds g
    match pp.error with
    | some _ => none
    | none => some ({ st with dataset := some pp.dataset }, effs1 ++ [Effect.processed, Effect.redraw])

/-- The loop of Controller.change lines 346-371: only the first change entry is
examined, because every branch of the loop body returns.  A removal (parent
change with data None) only redraws; a change whose top group is the processing
group dispatches to processingChanged; anything else falls through the loop
returning nothing further. -/
def changeLoop (env : Env) (st : CtrlState) (ds : Dataset) (g : ProcessGroup)
    (changes : List Chg) (effs : List Effect) : Option (CtrlState × List Effect) :=
  match changes with
  | [] => some (st, effs)
  | c :: _ =>
    if c.kind == "parent" && c.data.isNone then some (st, effs ++ [Effect.redraw])
    else if c.topGroup == "processing" then processingChanged env st ds g c effs
    else some (st, effs)

/-- Controller.change (controller.py lines 330-371): while isProcessing or
isInitializing is set, or no dataset is selected, the event is dropped with no
effect at all (the handler returns before saving state, marking the project
dirty or touching the pipeline, and there is no queue anywhere that could replay
it).  Otherwise the current tree state is saved onto the dataset and the project
is marked dirty when the state differs; an unchanged state returns unless the
first change is a context-menu event; then the first change entry is processed. -/
def Controller.change (env : Env) (st : CtrlState) (g : ProcessGroup) (changes : List Chg) :
    Option (CtrlState × List Effect) :=
  if st.isProcessing || st.isInitializing || st.dataset.isNone then some (st, [])
  else
    match st.dataset with
    | none => none
    | some ds =>
      let state := saveParams g
      if !(StateTree.beq ds.state state) then
        let ds1 := { ds with state := state }
        let st1 := { st with dataset := some ds1, dirty := true }
        changeLoop env st1 ds1 g changes [Effect.stateSaved, Effect.markedDirty]
      else
        match changes with
        | [] => none
        | c0 :: _ =>
          if c0.kind != "contextMenu" then some (st, [])
          else changeLoop env st ds g changes []

/-- A plot overlay handle (modelled from the spec: the pyqtgraph
LinearRegionItem is not part of the provided sources): its generated name, its
span and its brush colour. -/
structure LinearRegionItem where
  rname : String
  span : Rat × Rat
  brush : Nat × Nat × Nat × Nat
deriving DecidableEq, Repr

/-- The per-instance fields of model.Regions: the current kind and brush
colour.  The regionItems mapping is deliberately not a field: in the source it
is a class attribute, a single dictionary shared by every instance. -/
structure RegionsInst where
  kind : String
  brushcolor : Nat × Nat × Nat × Nat
deriving DecidableEq, Repr

/-- The shared class-level registry model.Regions.regionItems: an ordered
mapping from generated key to overlay handle and owning parameter, common to all
region-definition steps. -/
abbrev RegionItems := List (String × (LinearRegionItem × SpanChild))

/-- The brush colour table of model.Regions (line 300) with its get default. -/
def brushGet (kind : String) : Nat × Nat × Nat × Nat :=
  let k := strToLower kind
  if k == "mask" then (200, 200, 200, 60)
  else if k == "baseline" then (0, 200, 0, 60)
  else if k == "integral" then (0, 0, 200, 60)
  else (254, 0, 0, 60)

/-- Python dictionary item assignment on the shared registry: replace the entry
with the same key or append a new one. -/
def dictSet (m : RegionItems) (k : String) (v : LinearRegionItem × SpanChild) : RegionItems :=
  if m.any (fun e => e.1 == k) then m.map (fun e => if e.1 == k then (k, v) else e)
  else m ++ [(k, v)]

/-- model.Regions.addRegion (model.py lines 311-338): do nothing when the kind
is "undefined"; otherwise adopt the kind, take the supplied span or eval the
parameter value when none is supplied (a value still reading "undefined" leaves
the span as None and the format call that follows raises), write the
one-decimal formatted span back into the parameter value, create the overlay
handle named kind underscore parameter-name, and put it into the shared
registry under that key. -/
def Regions.addRegion (inst : RegionsInst) (items : RegionItems) (param : SpanChild)
    (kind : String) (span : Option (Rat × Rat)) :
    Option (RegionsInst × RegionItems × SpanChild) :=
  if kind == "undefined" then some (inst, items, param)
  else
    let inst1 : RegionsInst := { inst with kind := kind }
    let sp : Option (Rat × Rat) :=
      match span with
      | some s => some s
      | none => if param.value.isUndefined then none else evalPairVal param.value
    match sp with
    | none => none
    | some (lo, hi) =>
      let param1 : SpanChild := { param with value := fmtPair lo hi }
      let region : LinearRegionItem :=
        { rname := inst1.kind ++ "_" ++ pnameToString param1.name,
          span := (lo, hi), brush := inst1.brushcolor }
      some (inst1, dictSet items region.rname (region, param1), param1)

/-- model.Regions.remove (model.py lines 375-381): iterate over a snapshot of
all keys of the registry and delete every one of them.  Because regionItems is
a class attribute shared by every Regions instance, this clears the entries of
every region-definition step, not only those of the step being removed. -/
def Regions.remove (_items : RegionItems) : RegionItems := []

/-- The default span computation of controller.RegionGroup.addRegion lines
82-85: the centre is the mean of the visible axis range, the half-width is the
peak-to-peak extent of that range divided by 50, and the span runs from centre
minus half-width to centre plus half-width. -/
def defaultSpan (rangex : Rat × Rat) : Rat × Rat :=
  let x := (rangex.1 + rangex.2) / 2
  let w := (max rangex.1 rangex.2 - min rangex.1 rangex.2) / 50
  (x - w, x + w)

/-- The per-dataset scrub of Project.saveProject lines 165-168: clear the
processed fields of a retained dataset and transpose it back when it is
transposed. -/
def cleanDs (ds : Dataset) : Dataset :=
  let d1 := { ds with processeddata := none, processedmask := none }
  if d1.transposed then transposeDs d1 else d1

/-- The pruning loop of Project.saveProject lines 159-168, applied to the copy
of the project: in every sub-project delete each dataset whose name does not
contain "original" and scrub each retained one. -/
def prunedCopy (p : Proj) : Proj :=
  { p with subs := p.subs.map (fun pr =>
      (pr.1, pr.2.filterMap (fun ds =>
        if containsStr ds.name "original" then some (cleanDs ds) else none))) }

/-- Project.saveProject (model.py lines 153-178) restricted to the data it
decides: nothing is saved when the project is not dirty and the save is not
forced; otherwise the pruned, scrubbed copy is what goes to disk.  The
in-memory project is returned unchanged in either case, since every mutation in
the source happens on the copy. -/
def saveProject (dirty force : Bool) (p : Proj) : Option Proj × Proj :=
  if !force && !dirty then (none, p)
  else (some (prunedCopy p), p)

/-- A small concrete processor catalog for concrete evaluations: an ordinary
smoothing step with one default parameter, the define-regions step and the
terminal output step. -/
def catEx : Catalog :=
  [("smooth", ⟨"scp.smooth", [("length", .r 5)]⟩),
   ("define regions", ⟨"defineRegion", []⟩),
   ("output", ⟨"processingOutput", [("name", .s "untitled")]⟩)]

/-- The terminal output step as Controller.initialize creates it. -/
def outputStepEx : Step :=
  ⟨.key "output", "processingOutput", false, false, .plain [("name", .s "untitled")]⟩

/-- A concrete enabled smoothing step whose child parameter was edited away from
the catalog default. -/
def smoothStepEx : Step :=
  ⟨.step "smooth" 0, "scp.smooth", true, false, .plain [("length", .r 7)]⟩

/-- A concrete enabled define-regions step with kind baseline and two spans
whose values are in the low-comma-high form the region registry writes. -/
def regionStepEx : Step :=
  ⟨.step "define regions" 1, "defineRegion", true, true,
   .region ⟨"baseline", true, true, 2, [⟨.span 1 0, .pair 10 20⟩, ⟨.span 1 1, .pair 30 40⟩]⟩⟩

/-- A concrete pipeline with an edited ordinary step, a region step with two
spans and the terminal output step. -/
def gEx : ProcessGroup := ⟨[smoothStepEx, regionStepEx, outputStepEx], 2⟩

/-- A fresh pipeline as Controller.initialize builds it: only the terminal
output step, running index zero. -/
def g0Ex : ProcessGroup := ⟨[outputStepEx], 0⟩

/-- The shared registry after two different region-definition steps have each
registered one region through model.Regions.addRegion: the first instance adds
a baseline region for its own parameter, the second instance adds an integral
region for a parameter of another step, into the same class-level dictionary. -/
def itemsTwoEx : RegionItems :=
  match Regions.addRegion ⟨"undefined", brushGet "undefined"⟩ []
      ⟨.span 0 0, .s "undefined"⟩ "baseline" (some (1, 2)) with
  | some rA =>
    match Regions.addRegion ⟨"undefined", brushGet "undefined"⟩ rA.2.1
        ⟨.span 1 0, .s "undefined"⟩ "integral" (some (3, 4)) with
    | some rB => rB.2.1
    | none => []
  | none => []

/-- A concrete original dataset, transposed and carrying processed fields. -/
def dsOrigEx : Dataset :=
  ⟨"sample/original", some [[1, 2]], some [[false, false]], some [[3, 4]],
   some [[true, true]], true, saveParams gEx⟩

/-- A concrete derived dataset whose name does not contain "original". -/
def dsDerivedEx : Dataset :=
  ⟨"sample/out1", some [[9]], none, none, none, false, saveParams gEx⟩

/-- A concrete project with one sub-project holding the original and a derived
dataset. -/
def pEx : Proj := ⟨"untitled", [("sample", [dsOrigEx, dsDerivedEx])]⟩

/-- The environment in which every external call fails. -/
def envFailEx : Env := fun _ _ _ => .error "boom"

/-- The identity environment: every external call returns its input dataset. -/
def envIdEx : Env := fun _ d _ => .ok d

/-- A concrete pipeline with one enabled ordinary step before the output step. -/
def gRunEx : ProcessGroup := ⟨[smoothStepEx, outputStepEx], 1⟩

/-- A concrete selected dataset with no processed data. -/
def dsEx : Dataset :=
  ⟨"sample/original", some [[1, 2]], some [[false, false]], none, none, false, saveParams gEx⟩

/-- The selected dataset carrying a stale processed value from an earlier
replay. -/
def dsStaleEx : Dataset := { dsEx with processeddata := some [[9]] }

/-- The dataset dsEx after a successful identity replay: the raw data and mask
promoted into the processed fields. -/
def pdsEx : Dataset := { dsEx with processeddata := dsEx.data, processedmask := dsEx.mask }

/-- The one-action list used to exercise replay concretely. -/
def actsC3Ex : List (Option ActionCall) := [some ⟨"scp.smooth", []⟩]

/-- A concrete project holding the sub-project that owns the stale dataset. -/
def pOutEx : Proj := ⟨"proj", [("sample", [dsStaleEx])]⟩

/-- The concrete stripped saved state of the stale dataset. -/
def st0Wit : StateTree :=
  (stripOutputState dsStaleEx.state).getD (StateTree.mk PVal.null false [])

/-- Wellformedness of a non-output step as the pipeline builds them: a generated
step name, a catalog template the action came from, and a body matching the
template key (a define-regions step carries a region body whose kind is fixed
whenever spans exist; any other step carries plain parameters). -/
def WFStep (cat : Catalog) (s : Step) : Prop :=
  ∃ k i t, s.name = PName.step k i ∧ cat.find k = some t ∧ s.action = t.action ∧
    (if k = "define regions"
     then ∃ r, s.body = StepBody.region r ∧ (r.kind ≠ "undefined" ∨ r.spans = [])
     else ∃ ps, s.body = StepBody.plain ps)

/-- What restoring preserves of a step, following the specification words for
the round-trip claim: the template key of the (re-generated) name, the enabled
value, the expansion flag, the action, the region kind and the ordered span
values; the plain child parameters of an ordinary step come back as the
catalog defaults. -/
def restoredMatch (cat : Catalog) (s s2 : Step) : Prop :=
  stepKeyOf s2.name = stepKeyOf s.name ∧ s2.value = s.value ∧ s2.expanded = s.expanded ∧
  s2.action = s.action ∧
  (match s.body, s2.body with
   | .region r, .region r2 =>
       r2.kind = r.kind ∧ r2.spans.map SpanChild.value = r.spans.map SpanChild.value
   | .plain _, .plain ps2 => ∃ t, cat.find (stepKeyOf s.name) = some t ∧ ps2 = t.params
   | _, _ => False)

lemma insertAt_append_singleton {α : Type} (l : List α) (a x : α) :
    insertAt l.length a (l ++ [x]) = l ++ [a, x] := by
  induction l with
  | nil => rfl
  | cons y tl ih => simpa [insertAt] using ih

/-- Claim C8, corrected part.  The index in the generated step name comes from
the single group-wide running counter, not from a counter per template key:
starting from a fresh pipeline, adding a smoothing step and then the first
define-regions step names the latter with index 1, although it is the first
step of its template key (a per-key counter would give index 0). -/
theorem claim8_counterexample :
    ((ProcessGroup.addNew catEx g0Ex "smooth").bind (fun gs =>
        (ProcessGroup.addNew catEx gs.1 "define regions").map (fun gs2 => gs2.2.name)))
      = some (.step "define regions" 1) ∧
    PName.step "define regions" 1 ≠ PName.step "define regions" 0 := by
  exact ⟨rfl, by decide⟩

/-- Claim C8, amended.  ProcessGroup.addNew names the new step from the template
key and the group-wide running index (one counter shared by all template keys),
inserts the new node immediately before the fixed terminal output step, bumps
the counter and returns the new node. -/
theorem claim8_addnew_amended (cat : Catalog) (g : ProcessGroup) (key : String)
    (t : Template) (rest : List Step) (out : Step)
    (hfind : cat.find key = some t)
    (hchilds : g.childs = rest ++ [out])
    (_hout : out.name = PName.key "output") :
    ∃ child : Step,
      g.addNew cat key = some
        ({ childs := rest ++ [child, out], currentIndex := g.currentIndex + 1 }, child) ∧
      child.name = PName.step key g.currentIndex ∧
      child.action = t.action ∧ child.value = false ∧ child.body = mkStepBody key t := by
  refine ⟨⟨.step key g.currentIndex, t.action, false, false, mkStepBody key t⟩, ?_, rfl, rfl, rfl, rfl⟩
  simp [ProcessGroup.addNew, hfind, hchilds, insertAt_append_singleton]

/-- Witness for claim C8: the amended naming and placement at a concrete input. -/
theorem claim8_witness :
    ∃ child : Step,
      g0Ex.addNew catEx "smooth" = some
        ({ childs := [] ++ [child, outputStepEx], currentIndex := g0Ex.currentIndex + 1 }, child) ∧
      child.name = PName.step "smooth" g0Ex.currentIndex ∧
      child.action = "scp.smooth" ∧ child.value = false ∧
      child.body = mkStepBody "smooth" ⟨"scp.smooth", [("length", .r 5)]⟩ :=
  claim8_addnew_amended catEx g0Ex "smooth" ⟨"scp.smooth", [("length", .r 5)]⟩ [] outputStepEx
    rfl rfl rfl

/-- Claim C9, corrected part.  The default span computed by
RegionGroup.addRegion on the visible range 0 to 100 is 48 to 52: its width is 4,
which is one twenty-fifth of the visible span, not the claimed one fiftieth
(that would be a width of 2). -/
theorem claim9_counterexample :
    defaultSpan (0, 100) = (48, 52) ∧
    (defaultSpan (0, 100)).2 - (defaultSpan (0, 100)).1 ≠ ((100 : Rat) - 0) / 50 := by
  constructor
  · unfold defaultSpan
    norm_num [Prod.ext_iff]
  · unfold defaultSpan
    norm_num

lemma find?_map_replace (m : RegionItems) (k : String) (v : LinearRegionItem × SpanChild)
    (hm : m.any (fun e => e.1 == k) = true) :
    (m.map (fun e => if e.1 == k then (k, v) else e)).find? (fun e => e.1 == k)
      = some (k, v) := by
  induction m with
  | nil => simp at hm
  | cons e tl ih =>
    by_cases he : (e.1 == k) = true
    · simp only [List.map_cons, he, if_true]
      exact List.find?_cons_of_pos _ (by simp)
    · have he2 : (e.1 == k) = false := by simpa using he
      have htl : tl.any (fun e => e.1 == k) = true := by
        rw [List.any_cons, he2, Bool.false_or] at hm
        exact hm
      simp only [List.map_cons, he2, Bool.false_eq_true, if_false]
      rw [List.find?_cons_of_neg _ (by simp [he2])]
      exact ih htl

lemma find?_append_absent (m : RegionItems) (k : String) (v : LinearRegionItem × SpanChild)
    (hm : m.any (fun e => e.1 == k) = false) :
    (m ++ [(k, v)]).find? (fun e => e.1 == k) = some (k, v) := by
  induction m with
  | nil => exact List.find?_cons_of_pos _ (by simp)
  | cons e tl ih =>
    have hm2 : ((e.1 == k) || tl.any (fun e => e.1 == k)) = false := by
      rw [List.any_cons] at hm
      exact hm
    obtain ⟨h1, h2⟩ := Bool.or_eq_false_iff.mp hm2
    rw [List.cons_append, List.find?_cons_of_neg _ (by simp [h1])]
    exact ih h2

lemma dictSet_lookup (m : RegionItems) (k : String) (v : LinearRegionItem × SpanChild) :
    (dictSet m k v).find? (fun e => e.1 == k) = some (k, v) := by
  unfold dictSet
  by_cases hm : m.any (fun e => e.1 == k) = true
  · simp only [hm, if_true]
    exact find?_map_replace m k v hm
  · have hm2 : m.any (fun e => e.1 == k) = false := by
      rw [Bool.not_eq_true] at hm
      exact hm
    simp only [hm2, Bool.false_eq_true, if_false]
    exact find?_append_absent m k v hm2

/-- Claim C9, amended.  The default span is centred at the midpoint of the
visible range, but its half-width (not its width) is one fiftieth of the
visible span, so its full width is one twenty-fifth; and
model.Regions.addRegion, given a non-undefined kind and a concrete span, writes
the one-decimal formatted span back into the parameter value and registers the
overlay handle carrying exactly that span under the key built from the kind and
the parameter name. -/
theorem claim9_region_amended (lo hi : Rat) (hle : lo ≤ hi)
    (inst : RegionsInst) (items : RegionItems) (param : SpanChild)
    (kind : String) (a b : Rat) (hk : kind ≠ "undefined") :
    ((defaultSpan (lo, hi)).1 + (defaultSpan (lo, hi)).2) / 2 = (lo + hi) / 2 ∧
    (defaultSpan (lo, hi)).2 - (defaultSpan (lo, hi)).1 = (hi - lo) / 25 ∧
    ((defaultSpan (lo, hi)).2 - (defaultSpan (lo, hi)).1) / 2 = (hi - lo) / 50 ∧
    ∃ upd : RegionsInst × RegionItems × SpanChild,
      Regions.addRegion inst items param kind (some (a, b)) = some upd ∧
      upd.2.2.value = fmtPair a b ∧
      upd.2.1.find? (fun e => e.1 == kind ++ "_" ++ pnameToString param.name)
        = some (kind ++ "_" ++ pnameToString param.name,
            ({ rname := kind ++ "_" ++ pnameToString param.name, span := (a, b),
               brush := inst.brushcolor }, { param with value := fmtPair a b })) := by
  have hmax : max lo hi = hi := max_eq_right hle
  have hmin : min lo hi = lo := min_eq_left hle
  refine ⟨?_, ?_, ?_, ?_⟩
  · simp only [defaultSpan, hmax, hmin]; ring
  · simp only [defaultSpan, hmax, hmin]; ring
  · simp only [defaultSpan, hmax, hmin]; ring
  · have hk2 : (kind == "undefined") = false := by
      simpa using hk
    refine ⟨({ inst with kind := kind },
        dictSet items (kind ++ "_" ++ pnameToString param.name)
          ({ rname := kind ++ "_" ++ pnameToString param.name, span := (a, b),
             brush := inst.brushcolor }, { param with value := fmtPair a b }),
        { param with value := fmtPair a b }), ?_, rfl, ?_⟩
    · unfold Regions.addRegion
      simp only [hk2, Bool.false_eq_true, if_false]
    · exact dictSet_lookup items _ _

/-- Witness for claim C9: the amended span geometry and write-back at a concrete
input. -/
theorem claim9_witness :
    ((defaultSpan ((0 : Rat), 100)).1 + (defaultSpan (0, 100)).2) / 2 = (0 + 100) / 2 ∧
    (defaultSpan ((0 : Rat), 100)).2 - (defaultSpan (0, 100)).1 = (100 - 0) / 25 ∧
    ((defaultSpan ((0 : Rat), 100)).2 - (defaultSpan (0, 100)).1) / 2 = (100 - 0) / 50 ∧
    ∃ upd : RegionsInst × RegionItems × SpanChild,
      Regions.addRegion ⟨"undefined", brushGet "undefined"⟩ [] ⟨.span 0 0, .s "undefined"⟩
          "baseline" (some (10, 20)) = some upd ∧
      upd.2.2.value = fmtPair 10 20 ∧
      upd.2.1.find? (fun e => e.1 == "baseline" ++ "_" ++ pnameToString (PName.span 0 0))
        = some ("baseline" ++ "_" ++ pnameToString (PName.span 0 0),
            ({ rname := "baseline" ++ "_" ++ pnameToString (PName.span 0 0), span := (10, 20),
               brush := brushGet "undefined" }, ⟨.span 0 0, fmtPair 10 20⟩)) := by
  exact claim9_region_amended 0 100 (by norm_num) ⟨"undefined", brushGet "undefined"⟩ []
    ⟨.span 0 0, .s "undefined"⟩ "baseline" 10 20 (by decide)

/-- Claim C4, corrected part.  Because regionItems is a class attribute, the
registry is shared: with entries from two different region-definition steps
present, model.Regions.remove invoked for the first step also deletes the entry
the second step registered (the whole registry is cleared), so the entries of
other steps are not unaffected. -/
theorem claim4_counterexample :
    (itemsTwoEx.find? (fun e => e.1 == "integral_1.0")).isSome = true ∧
    (Regions.remove itemsTwoEx).find? (fun e => e.1 == "integral_1.0") = none ∧
    Regions.remove itemsTwoEx = [] := by
  exact ⟨rfl, rfl, rfl⟩

/-- Dictionary item assignment keeps the registry keys free of duplicates:
replacing the entry with the same key, or appending a key not yet present,
preserves Nodup of the key list. -/
lemma dictSet_nodup (items : RegionItems) (k : String) (v : LinearRegionItem × SpanChild)
    (hnd : (items.map Prod.fst).Nodup) : ((dictSet items k v).map Prod.fst).Nodup := by
  unfold dictSet
  by_cases hm : items.any (fun e => e.1 == k) = true
  · rw [if_pos hm]
    have heq : (items.map (fun e => if e.1 == k then (k, v) else e)).map Prod.fst
        = items.map Prod.fst := by
      rw [List.map_map]
      refine List.map_congr_left ?_
      intro e _
      by_cases he : (e.1 == k) = true
      · simp only [Function.comp_apply, he, if_true]
        exact (eq_of_beq he).symm
      · simp only [Function.comp_apply, he, Bool.false_eq_true, if_false]
    rw [heq]
    exact hnd
  · rw [if_neg hm]
    have hm2 : items.any (fun e => e.1 == k) = false := by
      rw [Bool.not_eq_true] at hm
      exact hm
    have habs : k ∉ items.map Prod.fst := by
      intro hmem
      obtain ⟨e, he, hfst⟩ := List.mem_map.mp hmem
      have := (List.any_eq_false.mp hm2) e he
      simp [hfst] at this
    simp only [List.map_append, List.map_cons, List.map_nil]
    exact List.Nodup.append hnd (List.nodup_singleton _)
      (by simpa [List.disjoint_singleton] using habs)

/-- Claim C4, amended.  The registry mapping from generated keys of the form
kind underscore parameter-name to overlay and parameter pairs is a single
class-level dictionary shared by all region-definition steps; its keys stay
unique per kind-plus-name pair under registration (dictionary update), and
model.Regions.remove clears every entry of the shared registry, those of every
step, not only those of the step whose parameter was removed. -/
theorem claim4_registry_amended (inst : RegionsInst) (items : RegionItems)
    (param : SpanChild) (kind : String)
    (hnd : (items.map Prod.fst).Nodup) :
    Regions.remove items = [] ∧
    ∀ (a b : Rat) (upd : RegionsInst × RegionItems × SpanChild),
      Regions.addRegion inst items param kind (some (a, b)) = some upd →
      ((upd.2.1).map Prod.fst).Nodup := by
  refine ⟨rfl, ?_⟩
  intro a b upd hadd
  unfold Regions.addRegion at hadd
  by_cases hk : (kind == "undefined") = true
  · rw [if_pos hk] at hadd
    cases hadd
    exact hnd
  · rw [if_neg hk] at hadd
    injection hadd with h
    subst h
    exact dictSet_nodup items _ _ hnd

/-- Witness for claim C4: the amended registry behaviour at a concrete input. -/
theorem claim4_witness :
    Regions.remove itemsTwoEx = [] ∧
    ∀ (a b : Rat) (upd : RegionsInst × RegionItems × SpanChild),
      Regions.addRegion ⟨"integral", brushGet "integral"⟩ itemsTwoEx
        ⟨.span 2 0, .s "undefined"⟩ "mask" (some (a, b)) = some upd →
      ((upd.2.1).map Prod.fst).Nodup :=
  claim4_registry_amended ⟨"integral", brushGet "integral"⟩ itemsTwoEx
    ⟨.span 2 0, .s "undefined"⟩ "mask" (by decide)

/-- Claim C2.  The action collection is the intended one pair per enabled step,
but on a region value of the low-comma-high form, which is exactly what the
region registry writes back into the parameter (fmtPair), the collection raises
IndexError while splitting on the dim separator, instead of emitting the kind
and range keyword arguments: the code expects a dim-prefixed form no component
of the provided sources ever writes. -/
theorem claim2_actions_failing :
    getProcessingActions gEx = .error "IndexError: list index out of range" ∧
    regionStepEx.value = true ∧
    regionStepEx ∈ gEx.childs ∧
    fmtPair 10 20 = PVal.pair 10 20 := by
  refine ⟨rfl, rfl, by decide, ?_⟩
  unfold fmtPair round1
  norm_num

lemma cleanDs_fields (ds : Dataset) :
    (cleanDs ds).name = ds.name ∧ (cleanDs ds).processeddata = none ∧
    (cleanDs ds).processedmask = none ∧ (cleanDs ds).transposed = false := by
  unfold cleanDs
  by_cases h : ds.transposed = true
  · simp [h, transposeDs]
  · have h2 : ds.transposed = false := by
      rw [Bool.not_eq_true] at h
      exact h
    simp [h2]

/-- Claim C10.  Project.saveProject (dirty project, forced or not) writes out the
pruned copy and leaves the in-memory project untouched; every dataset in the
pruned copy has a name containing "original", null processed data, false
processed mask and untransposed orientation; and every sub-project is retained
with exactly its filtered, scrubbed dataset list. -/
theorem claim10_saveproject (p : Proj) (force : Bool) :
    saveProject true force p = (some (prunedCopy p), p) ∧
    (∀ pr, pr ∈ (prunedCopy p).subs → ∀ ds, ds ∈ pr.2 →
      containsStr ds.name "original" = true ∧ ds.processeddata = none ∧
      ds.processedmask = none ∧ ds.transposed = false) ∧
    (∀ pr, pr ∈ p.subs →
      (pr.1, pr.2.filterMap (fun ds =>
        if containsStr ds.name "original" then some (cleanDs ds) else none))
        ∈ (prunedCopy p).subs) := by
  refine ⟨?_, ?_, ?_⟩
  · unfold saveProject
    simp
  · intro pr hpr ds hds
    unfold prunedCopy at hpr
    simp only [List.mem_map] at hpr
    obtain ⟨pr0, hpr0, hpr1⟩ := hpr
    subst hpr1
    simp only [List.mem_filterMap] at hds
    obtain ⟨ds0, hds0, hif⟩ := hds
    by_cases hc : containsStr ds0.name "original" = true
    · rw [if_pos hc] at hif
      injection hif with h
      subst h
      obtain ⟨-, h2, h3, h4⟩ := cleanDs_fields ds0
      have hname : (cleanDs ds0).name = ds0.name := (cleanDs_fields ds0).1
      rw [hname]
      exact ⟨hc, h2, h3, h4⟩
    · rw [if_neg hc] at hif
      exact Option.noConfusion hif
  · intro pr hpr
    unfold prunedCopy
    simp only [List.mem_map]
    exact ⟨pr, hpr, rfl⟩

/-- Witness for claim C10: the retained-dataset facts at a concrete project. -/
theorem claim10_witness :
    containsStr (cleanDs dsOrigEx).name "original" = true ∧
    (cleanDs dsOrigEx).processeddata = none ∧
    (cleanDs dsOrigEx).processedmask = none ∧
    (cleanDs dsOrigEx).transposed = false := by
  have h := (claim10_saveproject pEx false).2.1 _ (List.mem_cons_self _ _)
    (cleanDs dsOrigEx) (List.mem_cons_self _ _)
  exact h

/-- Claim C7.  While isProcessing or isInitializing is set, or no dataset is
selected, Controller.change drops the event with no effect whatsoever: the
controller state is unchanged (nothing saved onto the dataset, project not
marked dirty), no effects are produced (no replay started), and the handler
holds no queue, so a dropped event can never be replayed later. -/
theorem claim7_drop_guard (env : Env) (st : CtrlState) (g : ProcessGroup) (changes : List Chg)
    (h : st.isProcessing = true ∨ st.isInitializing = true ∨ st.dataset = none) :
    Controller.change env st g changes = some (st, []) := by
  unfold Controller.change
  rcases h with h | h | h
  · simp [h]
  · simp [h]
  · simp [h]

/-- Witness for claim C7: a dropped event at a concrete busy state. -/
theorem claim7_witness :
    Controller.change (fun _ d _ => .ok d) ⟨true, false, none, false⟩ gEx []
      = some (⟨true, false, none, false⟩, []) :=
  claim7_drop_guard (fun _ d _ => .ok d) ⟨true, false, none, false⟩ gEx [] (Or.inl rfl)

/-- Claim C5, corrected part.  When replay fails, processeddata does not retain
its previous stale value: performProcessing clears it to null before replaying,
so after the failure the stale value is gone. -/
theorem claim5_counterexample :
    dsStaleEx.processeddata = some [[9]] ∧
    (performProcessing envFailEx dsStaleEx gRunEx).error = some "boom" ∧
    (performProcessing envFailEx dsStaleEx gRunEx).dataset.processeddata = none ∧
    (performProcessing envFailEx dsStaleEx gRunEx).dataset.processeddata
      ≠ dsStaleEx.processeddata := by
  exact ⟨rfl, rfl, rfl, by decide⟩

/-- Claim C5, amended.  The saved-state blob is written before any action runs,
so a replay failure leaves the dataset with the freshly saved state intact and
no partial replay result; but the processed fields have been cleared to null
and false before replay, so processeddata after a failure is null, not the
previous stale value. -/
theorem claim5_failure_amended (env : Env) (ds : Dataset) (g : ProcessGroup)
    (actions : List ActionCall) (e : String)
    (hact : getProcessingActions g = .ok actions)
    (herr : (performProcessing env ds g).error = some e) :
    (performProcessing env ds g).dataset.state = saveParams g ∧
    (performProcessing env ds g).dataset.processeddata = none ∧
    (performProcessing env ds g).dataset.processedmask = none := by
  simp only [performProcessing, hact] at herr ⊢
  split at herr
  · simp at herr
  · rename_i hemp
    have hne : ¬(actions = []) := by
      simpa [List.isEmpty_iff] using hemp
    split at herr
    · by_cases ht : ds.transposed = true
      · simp [ht, transposeDs, hne]
      · have ht2 : ds.transposed = false := by
          rw [Bool.not_eq_true] at ht
          exact ht
        simp [ht2, hne]
    · by_cases ht : ds.transposed = true
      · simp [ht, transposeDs, hne]
      · have ht2 : ds.transposed = false := by
          rw [Bool.not_eq_true] at ht
          exact ht
        simp [ht2, hne]
    · simp at herr
/-- Witness for claim C5: the amended failure facts at a concrete input. -/
theorem claim5_witness :
    (performProcessing envFailEx dsStaleEx gRunEx).dataset.state = saveParams gRunEx ∧
    (performProcessing envFailEx dsStaleEx gRunEx).dataset.processeddata = none ∧
    (performProcessing envFailEx dsStaleEx gRunEx).dataset.processedmask = none :=
  claim5_failure_amended envFailEx dsStaleEx gRunEx
    [⟨"scp.smooth", [("length", KwVal.v (.r 7))]⟩] "boom" rfl rfl

/-- Claim C3.  Replay threads the external functions over a full copy of the
dataset; on success only the processed fields of the original dataset receive
the final data and mask (with a re-transposition of the original when the
result flipped orientation); the name, state and, absent a flip, the data and
mask of the original are untouched, and the data field is in no case replaced
by the processed result; and when zero calls produced output the processed
fields are cleared to null and false. -/
theorem claim3_propagate_frame (env : Env) (ds : Dataset) (actions : List (Option ActionCall))
    (ds2 : Dataset) (h : propagateActions env ds actions = .ok (some ds2)) :
    ds2.name = ds.name ∧ ds2.state = ds.state ∧
    ((ds2.data = ds.data ∧ ds2.mask = ds.mask ∧ ds2.transposed = ds.transposed) ∨
     (ds2.data = ds.data.map List.transpose ∧ ds2.mask = ds.mask.map List.transpose ∧
      ds2.transposed = !ds.transposed)) ∧
    ∃ n fin, runActions env (some ds.copy) actions = .ok (n, fin) ∧
      ((∃ d, fin = some d ∧ n ≠ 0 ∧ ds2.processeddata = d.data ∧ ds2.processedmask = d.mask) ∨
       ((fin = none ∨ n = 0) ∧ ds2.processeddata = none ∧ ds2.processedmask = none)) := by
  unfold propagateActions at h
  by_cases hA : (actions == [none]) = true
  · simp [hA] at h
  · have hA2 : (actions == [none]) = false := by
      rw [Bool.not_eq_true] at hA
      exact hA
    simp only [hA2, Bool.false_eq_true, if_false] at h
    rcases hr : runActions env (some ds.copy) actions with e | nf
    · rw [hr] at h
      simp [Bind.bind, Except.bind] at h
    · rw [hr] at h
      obtain ⟨n, fin⟩ := nf
      simp only [Bind.bind, Except.bind] at h
      rcases fin with _ | nd
      · simp only [Except.ok.injEq, Option.some.injEq] at h
        subst h
        exact ⟨rfl, rfl, Or.inl ⟨rfl, rfl, rfl⟩,
          n, none, rfl, Or.inr ⟨Or.inl rfl, rfl, rfl⟩⟩
      · by_cases hn : (n != 0) = true
        · simp only [hn, if_true, Except.ok.injEq, Option.some.injEq] at h
          subst h
          by_cases ht : nd.transposed = true
          · rw [if_pos ht]
            refine ⟨rfl, rfl, Or.inr ⟨rfl, rfl, rfl⟩,
              n, some nd, rfl, Or.inl ⟨nd, rfl, ?_, rfl, rfl⟩⟩
            exact bne_iff_ne.mp hn
          · rw [if_neg ht]
            refine ⟨rfl, rfl, Or.inl ⟨rfl, rfl, rfl⟩,
              n, some nd, rfl, Or.inl ⟨nd, rfl, ?_, rfl, rfl⟩⟩
            exact bne_iff_ne.mp hn
        · have hn2 : (n != 0) = false := by
            rw [Bool.not_eq_true] at hn
            exact hn
          simp only [hn2, Bool.false_eq_true, if_false, Except.ok.injEq, Option.some.injEq] at h
          subst h
          exact ⟨rfl, rfl, Or.inl ⟨rfl, rfl, rfl⟩,
            n, some nd, rfl, Or.inr ⟨Or.inr (bne_eq_false_iff_eq.mp hn2), rfl, rfl⟩⟩
/-- Witness for claim C3: the replay frame condition at a concrete input. -/
theorem claim3_witness :
    propagateActions envIdEx dsEx actsC3Ex = .ok (some pdsEx) ∧
    (pdsEx.name = dsEx.name ∧ pdsEx.state = dsEx.state ∧
     ((pdsEx.data = dsEx.data ∧ pdsEx.mask = dsEx.mask ∧ pdsEx.transposed = dsEx.transposed) ∨
      (pdsEx.data = dsEx.data.map List.transpose ∧ pdsEx.mask = dsEx.mask.map List.transpose ∧
       pdsEx.transposed = !dsEx.transposed)) ∧
     ∃ n fin, runActions envIdEx (some dsEx.copy) actsC3Ex = .ok (n, fin) ∧
       ((∃ d, fin = some d ∧ n ≠ 0 ∧ pdsEx.processeddata = d.data ∧
          pdsEx.processedmask = d.mask) ∨
        ((fin = none ∨ n = 0) ∧ pdsEx.processeddata = none ∧ pdsEx.processedmask = none))) :=
  ⟨rfl, claim3_propagate_frame envIdEx dsEx actsC3Ex pdsEx rfl⟩

lemma takeUntilChar_not_mem (l : List Char) (sep : Char) : sep ∉ takeUntilChar l sep := by
  induction l with
  | nil => simp [takeUntilChar]
  | cons c cs ih =>
    by_cases hc : (c == sep) = true
    · simp [takeUntilChar, hc]
    · have hc2 : (c == sep) = false := by
        rw [Bool.not_eq_true] at hc
        exact hc
      have hne : sep ≠ c := fun he => by simp [he] at hc2
      simp [takeUntilChar, hc2, List.mem_cons, not_or]
      exact ⟨hne, ih⟩

lemma takeUntilChar_append (l r : List Char) (sep : Char) (h : sep ∉ l) :
    takeUntilChar (l ++ sep :: r) sep = l := by
  induction l with
  | nil => simp [takeUntilChar]
  | cons c cs ih =>
    have hne : c ≠ sep := fun he => h (by rw [he]; exact List.mem_cons_self _ _)
    have hc : (c == sep) = false := by simp [hne]
    simp only [List.cons_append, takeUntilChar, hc, Bool.false_eq_true, if_false, List.append_eq]
    rw [ih (fun hm => h (List.mem_cons_of_mem _ hm))]

lemma splitHead_concat (s t : String) :
    splitHead (splitHead s '/' ++ "/" ++ t) '/' = splitHead s '/' := by
  unfold splitHead
  have hdata : (String.mk (takeUntilChar s.data '/') ++ "/" ++ t).data
      = takeUntilChar s.data '/' ++ '/' :: t.data := by
    rw [String.data_append, String.data_append]
    simp
  rw [hdata, takeUntilChar_append _ _ _ (takeUntilChar_not_mem _ _)]

lemma find?_map_keyreplace {α β : Type} [BEq α] [LawfulBEq α]
    (l : List (α × β)) (k : α) (v : β)
    (h : (l.find? (fun e => e.1 == k)).isSome = true) :
    (l.map (fun e => if e.1 == k then (k, v) else e)).find? (fun e => e.1 == k)
      = some (k, v) := by
  induction l with
  | nil => simp at h
  | cons e tl ih =>
    by_cases he : (e.1 == k) = true
    · simp only [List.map_cons, he, if_true]
      exact List.find?_cons_of_pos _ (by simp)
    · have he2 : (e.1 == k) = false := by
        rw [Bool.not_eq_true] at he
        exact he
      simp only [List.map_cons, he2, Bool.false_eq_true, if_false]
      rw [List.find?_cons_of_neg _ (by simp [he2])]
      apply ih
      rw [List.find?_cons_of_neg _ (by simp [he2])] at h
      exact h

lemma find?_map_keyreplace2 {α β : Type} [BEq α] [LawfulBEq α]
    (l : List (α × β)) (k : α) (v : β)
    (h : (l.find? (fun e => e.1 == k)).isSome = true) :
    (l.map (fun e => if e.1 == k then (e.1, v) else e)).find? (fun e => e.1 == k)
      = some (k, v) := by
  induction l with
  | nil => simp at h
  | cons e tl ih =>
    by_cases he : (e.1 == k) = true
    · simp only [List.map_cons, he, if_true]
      rw [List.find?_cons_of_pos _ (by simpa using he)]
      have heq : e.1 = k := by simpa using he
      rw [heq]
    · have he2 : (e.1 == k) = false := by
        rw [Bool.not_eq_true] at he
        exact he
      simp only [List.map_cons, he2, Bool.false_eq_true, if_false]
      rw [List.find?_cons_of_neg _ (by simp [he2])]
      apply ih
      rw [List.find?_cons_of_neg _ (by simp [he2])] at h
      exact h

lemma mem_replace_of_any (dss : List Dataset) (nm : String) (x : Dataset)
    (h : dss.any (fun d => d.name == nm) = true) :
    x ∈ dss.map (fun d => if d.name == nm then x else d) := by
  induction dss with
  | nil => simp at h
  | cons d tl ih =>
    by_cases hd : (d.name == nm) = true
    · simp only [List.map_cons, hd, if_true]
      exact List.mem_cons_self _ _
    · have hd2 : (d.name == nm) = false := by
        rw [Bool.not_eq_true] at hd
        exact hd
      have htl : tl.any (fun d => d.name == nm) = true := by
        rw [List.any_cons, hd2, Bool.false_or] at h
        exact h
      simp only [List.map_cons, hd2, Bool.false_eq_true, if_false]
      exact List.mem_cons_of_mem _ (ih htl)

lemma findSub_setSub (p : Proj) (n : String) (dss l : List Dataset)
    (h : p.findSub n = some dss) : (p.setSub n l).findSub n = some l := by
  unfold Proj.findSub Proj.setSub at *
  have hs : (p.subs.find? (fun e => e.1 == n)).isSome = true := by
    rcases hf : p.subs.find? (fun e => e.1 == n) with _ | e
    · rw [hf] at h
      exact Option.noConfusion h
    · rw [hf]
      rfl
  rw [find?_map_keyreplace _ _ _ hs]
  rfl

lemma mapOpt_fix_entries (kept : List (PName × StateTree)) :
    ∀ fixed : List (PName × StateTree),
    (∀ c ∈ kept, (strTrim (pnameToString c.1) == "output") = true) →
    mapOpt (fun c => (fixOutputEntry c.2).map (fun t2 => (c.1, t2))) kept = some fixed →
    ∀ c ∈ fixed, strTrim (pnameToString c.1) = "output" ∧ c.2.value = .b false ∧
      ∃ nt, (c.2).find (.key "name") = some nt ∧ nt.value = .s "untitled" := by
  induction kept with
  | nil =>
    intro fixed _ hm c hc
    unfold mapOpt at hm
    injection hm with hm2
    subst hm2
    simp at hc
  | cons e tl ih =>
    intro fixed hk hm c hc
    unfold mapOpt at hm
    rcases hfe : fixOutputEntry e.2 with _ | t2
    · rw [hfe] at hm
      exact Option.noConfusion hm
    · rw [hfe] at hm
      rcases hmt : mapOpt (fun c => (fixOutputEntry c.2).map (fun t2 => (c.1, t2))) tl
          with _ | fixtl
      · rw [hmt] at hm
        exact Option.noConfusion hm
      · rw [hmt] at hm
        simp only [Option.map_some'] at hm
        injection hm with hm2
        subst hm2
        rcases hc with hc | hc
        case head =>
          refine ⟨?_, ?_, ?_⟩
          · have := hk e (List.mem_cons_self _ _)
            exact eq_of_beq this
          · unfold fixOutputEntry at hfe
            rcases hnt : e.2.find (.key "name") with _ | nt
            · rw [hnt] at hfe
              exact Option.noConfusion hfe
            · rw [hnt] at hfe
              injection hfe with hfe2
              subst hfe2
              rfl
          · unfold fixOutputEntry at hfe
            rcases hnt : e.2.find (.key "name") with _ | nt
            · rw [hnt] at hfe
              exact Option.noConfusion hfe
            · rw [hnt] at hfe
              injection hfe with hfe2
              subst hfe2
              refine ⟨StateTree.mk (PVal.s "untitled") nt.expanded nt.children, ?_, rfl⟩
              have hns : ((e.2).children.find? (fun c => c.1 == PName.key "name")).isSome
                  = true := by
                unfold StateTree.find at hnt
                rcases hf2 : (e.2).children.find? (fun c => c.1 == PName.key "name") with _ | q
                · rw [hf2] at hnt
                  exact Option.noConfusion hnt
                · rw [hf2]
                  rfl
              have h2 := find?_map_keyreplace2 e.2.children (PName.key "name")
                (StateTree.mk (PVal.s "untitled") nt.expanded nt.children) hns
              exact congrArg (Option.map (fun c => c.2)) h2
        case tail hc =>
          exact ih fixtl (fun q hq => hk q (List.mem_cons_of_mem _ hq)) hmt c hc
lemma stripOutput_entries (st st0 : StateTree) (h : stripOutputState st = some st0) :
    ∃ proc0, st0.find (.key "processing") = some proc0 ∧
      ∀ c ∈ proc0.children, strTrim (pnameToString c.1) = "output" ∧ c.2.value = .b false ∧
        ∃ nt, (c.2).find (.key "name") = some nt ∧ nt.value = .s "untitled" := by
  unfold stripOutputState at h
  rcases hp : st.find (.key "processing") with _ | proc
  · rw [hp] at h
    exact Option.noConfusion h
  · rw [hp] at h
    dsimp only at h
    rcases hm : mapOpt (fun c => (fixOutputEntry c.2).map (fun t2 => (c.1, t2)))
        (proc.children.filter (fun c => strTrim (pnameToString c.1) == "output"))
        with _ | fixed
    · rw [hm] at h
      exact Option.noConfusion h
    · rw [hm] at h
      injection h with h2
      subst h2
      refine ⟨StateTree.mk proc.value proc.expanded fixed, ?_, ?_⟩
      · have hs : (st.children.find? (fun c => c.1 == PName.key "processing")).isSome = true := by
          unfold StateTree.find at hp
          rcases hf : st.children.find? (fun c => c.1 == PName.key "processing") with _ | q
          · rw [hf] at hp
            exact Option.noConfusion hp
          · rw [hf]
            rfl
        have h2 := find?_map_keyreplace st.children (PName.key "processing")
          (StateTree.mk proc.value proc.expanded fixed) hs
        exact congrArg (Option.map (fun c => c.2)) h2
      · exact mapOpt_fix_entries _ fixed
          (fun c hc => (List.mem_filter.mp hc).2) hm
/-- Claim C6, amended.  Given a dataset with processeddata set whose saved
state strips successfully, processingOutput registers in the owning sub-project
a clone named sub-project slash new-name whose data and mask are the prior
processed pair, whose processed fields are cleared, and whose saved state keeps
only entries with stripped key "output", each disabled with its name parameter
reset to "untitled"; the source dataset itself is returned unmodified and the
project is marked dirty.  This holds only when the full new name does not
contain "untitled": otherwise updateDataset silently skips the registration. -/
theorem claim6_output_amended (p : Proj) (dirty : Bool) (ds : Dataset) (name : String)
    (st0 : StateTree) (dss : List Dataset)
    (_hpd : ds.processeddata.isSome = true)
    (hstrip : stripOutputState ds.state = some st0)
    (hunt : containsStr (splitHead ds.name '/' ++ "/" ++ name) "untitled" = false)
    (hsub : p.findSub (splitHead ds.name '/') = some dss) :
    ∃ dss2 : List Dataset,
      processingOutput p dirty ds name
        = some (p.setSub (splitHead ds.name '/') dss2, true, ds) ∧
      (p.setSub (splitHead ds.name '/') dss2).findSub (splitHead ds.name '/') = some dss2 ∧
      (⟨splitHead ds.name '/' ++ "/" ++ name, ds.processeddata, ds.processedmask,
        none, none, ds.transposed, st0⟩ : Dataset) ∈ dss2 ∧
      (∃ proc0, st0.find (.key "processing") = some proc0 ∧
        ∀ c ∈ proc0.children, strTrim (pnameToString c.1) = "output" ∧ c.2.value = .b false ∧
          ∃ nt, (c.2).find (.key "name") = some nt ∧ nt.value = .s "untitled") := by
  unfold processingOutput Dataset.copy updateDataset
  simp only [hstrip, Bind.bind, Option.some_bind]
  simp only [hunt, Bool.false_eq_true, if_false]
  rw [splitHead_concat, hsub]
  split
  · rename_i heq
    exact Option.noConfusion heq
  · rename_i dss3 heq
    injection heq with heq2
    subst heq2
    by_cases hany : dss.any (fun d =>
        d.name == splitHead ds.name '/' ++ "/" ++ name) = true
    · rw [if_pos hany]
      refine ⟨dss.map (fun d =>
        if d.name == splitHead ds.name '/' ++ "/" ++ name
        then ⟨splitHead ds.name '/' ++ "/" ++ name, ds.processeddata, ds.processedmask,
          none, none, ds.transposed, st0⟩ else d), by rfl, ?_, ?_, ?_⟩
      · exact findSub_setSub p _ dss _ hsub
      · exact mem_replace_of_any dss _ _ hany
      · exact stripOutput_entries ds.state st0 hstrip
    · rw [if_neg hany]
      refine ⟨dss ++ [⟨splitHead ds.name '/' ++ "/" ++ name, ds.processeddata, ds.processedmask,
          none, none, ds.transposed, st0⟩], by rfl, ?_, ?_, ?_⟩
      · exact findSub_setSub p _ dss _ hsub
      · exact List.mem_append_right _ (List.mem_cons_self _ _)
      · exact stripOutput_entries ds.state st0 hstrip

/-- Claim C6, corrected part.  With the new name "untitled" (exactly the value
the output step name parameter is reset to), updateDataset silently ignores the
clone, so no new dataset is registered in the owning sub-project: the project
comes back unchanged and no dataset named sample slash untitled exists in it,
while processingOutput still returns the original dataset. -/
theorem claim6_counterexample :
    processingOutput pOutEx false dsStaleEx "untitled" = some (pOutEx, false, dsStaleEx) ∧
    ((pOutEx.findSub "sample").getD []).all
      (fun d => d.name != "sample/untitled") = true := by
  exact ⟨rfl, rfl⟩

/-- Witness for claim C6: the amended output materialization at a concrete
input. -/
theorem claim6_witness :
    ∃ dss2 : List Dataset,
      processingOutput pOutEx false dsStaleEx "out1"
        = some (pOutEx.setSub (splitHead dsStaleEx.name '/') dss2, true, dsStaleEx) ∧
      (pOutEx.setSub (splitHead dsStaleEx.name '/') dss2).findSub
        (splitHead dsStaleEx.name '/') = some dss2 ∧
      (⟨splitHead dsStaleEx.name '/' ++ "/" ++ "out1", dsStaleEx.processeddata,
        dsStaleEx.processedmask, none, none, dsStaleEx.transposed, st0Wit⟩ : Dataset) ∈ dss2 ∧
      (∃ proc0, st0Wit.find (.key "processing") = some proc0 ∧
        ∀ c ∈ proc0.children, strTrim (pnameToString c.1) = "output" ∧ c.2.value = .b false ∧
          ∃ nt, (c.2).find (.key "name") = some nt ∧ nt.value = .s "untitled") :=
  claim6_output_amended pOutEx false dsStaleEx "out1" st0Wit [dsStaleEx] rfl rfl rfl rfl

lemma key_beq (a b : String) : (PName.key a == PName.key b) = (a == b) := by
  by_cases h : a = b
  · subst h
    simp
  · have h1 : (PName.key a == PName.key b) = false := beq_eq_false_iff_ne.mpr (by simp [h])
    have h2 : (a == b) = false := beq_eq_false_iff_ne.mpr h
    rw [h1, h2]
lemma lookup_leaf (ps : List (String × PVal)) (n : String) :
    ((ps.map (fun p => ((PName.key p.1 : PName), StateTree.mk p.2 false []))).find?
        (fun c => c.1 == PName.key n))
      = (ps.find? (fun p => p.1 == n)).map
          (fun p => ((PName.key p.1 : PName), StateTree.mk p.2 false [])) := by
  induction ps with
  | nil => simp
  | cons p tl ih =>
    by_cases hp : (p.1 == n) = true
    · rw [List.map_cons, List.find?_cons_of_pos _ (by simpa [key_beq] using hp),
        List.find?_cons_of_pos _ (by simpa using hp)]
      rfl
    · have hp2 : (p.1 == n) = false := by
        rw [Bool.not_eq_true] at hp
        exact hp
      rw [List.map_cons, List.find?_cons_of_neg _ (by simp [key_beq, hp2]),
        List.find?_cons_of_neg _ (by simp [hp2])]
      exact ih

lemma find?_self_of_nodup (ps : List (String × PVal)) (hnd : (ps.map Prod.fst).Nodup)
    (p : String × PVal) (hp : p ∈ ps) : ps.find? (fun q => q.1 == p.1) = some p := by
  induction ps with
  | nil => cases hp
  | cons q tl ih =>
    rcases List.mem_cons.mp hp with rfl | hp2
    · exact List.find?_cons_of_pos _ (by simp)
    · have hnd2 : q.1 ∉ tl.map Prod.fst ∧ (tl.map Prod.fst).Nodup := by
        rw [List.map_cons] at hnd
        exact List.nodup_cons.mp hnd
      have hq : (q.1 == p.1) = false := by
        have hpm : p.1 ∈ tl.map Prod.fst := List.mem_map_of_mem _ hp2
        exact beq_eq_false_iff_ne.mpr (fun he => hnd2.1 (he ▸ hpm))
      rw [List.find?_cons_of_neg _ (by simp [hq])]
      exact ih hnd2.2 hp2

lemma restorePlain_self (ps : List (String × PVal)) (v : PVal) (e : Bool)
    (hnd : (ps.map Prod.fst).Nodup) :
    restorePlainParams ps
      (StateTree.mk v e (ps.map (fun p => ((PName.key p.1 : PName), StateTree.mk p.2 false []))))
      = ps := by
  unfold restorePlainParams
  have hcong : ∀ p ∈ ps,
      (match (StateTree.mk v e
          (ps.map (fun p => ((PName.key p.1 : PName), StateTree.mk p.2 false [])))).find
          (PName.key p.1) with
       | some ct => (p.1, ct.value)
       | none => p) = p := by
    intro p hp
    unfold StateTree.find
    simp only [StateTree.children]
    rw [lookup_leaf, find?_self_of_nodup ps hnd p hp]
    rfl
  calc ps.map (fun p =>
      match (StateTree.mk v e
          (ps.map (fun p => ((PName.key p.1 : PName), StateTree.mk p.2 false [])))).find
          (PName.key p.1) with
       | some ct => (p.1, ct.value)
       | none => p)
      = ps.map id := List.map_congr_left hcong
    _ = ps := List.map_id ps
lemma addSpansLoop_saved (k2 : String) (i2 : Nat) (exp : Bool) (spans : List SpanChild) :
    ∀ r : RegionBody, (r.kind ≠ "undefined" ∨ spans = []) →
    ∃ r2, addSpansLoop (PName.step k2 i2) exp r (spans.map saveSpan) = some r2 ∧
      r2.kind = r.kind ∧
      r2.spans.map SpanChild.value = r.spans.map SpanChild.value ++ spans.map SpanChild.value := by
  induction spans with
  | nil =>
    intro r _
    exact ⟨r, rfl, rfl, by simp⟩
  | cons sp tl ih =>
    intro r h
    have hk : r.kind ≠ "undefined" := by
      rcases h with h | h
      · exact h
      · exact absurd h (by simp)
    have hkb : (r.kind == "undefined") = false := beq_eq_false_iff_ne.mpr hk
    unfold addSpansLoop RegionGroup.addNewSpan
    simp only [List.map_cons, hkb, Bool.false_eq_true, if_false, splitHash2]
    obtain ⟨r2, he, hkind, hvals⟩ := ih
      { r with rgIndex := r.rgIndex + 1,
               spans := r.spans ++ [⟨PName.span i2 r.rgIndex, sp.value⟩],
               rgExpanded := exp }
      (Or.inl hk)
    refine ⟨r2, he, by rw [hkind], ?_⟩
    rw [hvals]
    simp

lemma restoreRegion_saved (r : RegionBody) (child : Step) (k2 : String) (i2 : Nat)
    (v : PVal) (e : Bool)
    (hname : child.name = PName.step k2 i2)
    (hbody : child.body = StepBody.region ⟨"undefined", false, false, 0, []⟩)
    (hcond : r.kind ≠ "undefined" ∨ r.spans = []) :
    ∃ r2, restoreRegionChild (StateTree.mk v e (saveStepBody (StepBody.region r))) child
        = some { child with body := StepBody.region r2 } ∧
      r2.kind = r.kind ∧ r2.spans.map SpanChild.value = r.spans.map SpanChild.value := by
  unfold restoreRegionChild
  rw [hbody]
  have hfk : (StateTree.mk v e (saveStepBody (StepBody.region r))).find (PName.key "kind")
      = some (StateTree.mk (PVal.s r.kind) false []) := by
    unfold StateTree.find saveStepBody
    simp [StateTree.children]
  have hfr : (StateTree.mk v e (saveStepBody (StepBody.region r))).find
      (PName.key "regiongroup")
      = some (StateTree.mk PVal.null r.rgExpanded (r.spans.map saveSpan)) := by
    unfold StateTree.find saveStepBody
    simp [StateTree.children]
  obtain ⟨r2, he, hkind, hvals⟩ := addSpansLoop_saved k2 i2 r.rgExpanded r.spans
    { kind := r.kind, kindReadonly := false || (r.kind != "undefined"),
      rgExpanded := false, rgIndex := 0, spans := [] }
    (by simpa using hcond)
  rw [hfk]
  simp only [StateTree.value]
  rw [hfr]
  simp only [StateTree.expanded, StateTree.children]
  rw [hname, he]
  exact ⟨r2, rfl, by simpa using hkind, by simpa using hvals⟩
lemma setStep_list (acc : List Step) (child child2 out : Step) (c : Nat)
    (hacc : ∀ a ∈ acc, (a.name == child.name) = false)
    (hout : (out.name == child.name) = false) :
    ProcessGroup.setStep ⟨acc ++ [child, out], c⟩ child.name child2
      = ⟨acc ++ [child2, out], c⟩ := by
  unfold ProcessGroup.setStep
  simp only [ProcessGroup.mk.injEq, and_true]
  rw [List.map_append]
  have h1 : acc.map (fun cc => if cc.name == child.name then child2 else cc) = acc := by
    have h0 : ∀ a ∈ acc, (fun cc => if cc.name == child.name then child2 else cc) a = a := by
      intro a ha
      simp [hacc a ha]
    rw [List.map_congr_left h0]
    simp
  rw [h1]
  simp only [List.map_cons, List.map_nil, beq_self_eq_true, if_true, hout,
    Bool.false_eq_true, if_false]

lemma restoreLoop_saved (cat : Catalog) (steps : List Step) :
    ∀ (acc : List Step) (out : Step) (c : Nat),
    (∀ s ∈ steps, WFStep cat s) →
    out.name = PName.key "output" →
    (∀ a ∈ acc, ∃ ka ia, a.name = PName.step ka ia ∧ ia < c) →
    ∃ news : List Step,
      restoreLoop cat ⟨acc ++ [out], c⟩ (steps.map saveStep)
        = some ⟨acc ++ news ++ [out], c + steps.length⟩ ∧
      List.Forall₂ (restoredMatch cat) steps news := by
  induction steps with
  | nil =>
    intro acc out c _ _ _
    refine ⟨[], ?_, List.Forall₂.nil⟩
    simp [restoreLoop]
  | cons s tl ih =>
    intro acc out c hwf hout hacc
    obtain ⟨k, i, t, hname, hfind, hact, hbodyc⟩ := hwf s (List.mem_cons_self _ _)
    obtain ⟨snm, sact, sval, sexp, sbody⟩ := s
    simp only at hname hact
    subst hname
    subst hact
    -- the freshly created child before the region restore
    have hlen : ((acc ++ [out]).length - 1) = acc.length := by simp
    have hbeq_out : (out.name == PName.step k c) = false := by
      rw [hout]
      rfl
    have hbeq_acc : ∀ a ∈ acc, (a.name == PName.step k c) = false := by
      intro a ha
      obtain ⟨ka, ia, han, hia⟩ := hacc a ha
      rw [han]
      exact beq_eq_false_iff_ne.mpr (by
        intro he
        injection he with h1 h2
        exact absurd h2 (Nat.ne_of_lt hia))
    by_cases hk : k = "define regions"
    · subst hk
      rw [if_pos rfl] at hbodyc
      obtain ⟨r, hb, hcond⟩ := hbodyc
      simp only at hb
      subst hb
      obtain ⟨r2, hrr, hrk, hrv⟩ := restoreRegion_saved r
        ⟨PName.step "define regions" c, t.action, sval, sexp,
          StepBody.region ⟨"undefined", false, false, 0, []⟩⟩
        "define regions" c (PVal.b sval) sexp rfl rfl hcond
      have h1 : restoreLoop cat ⟨acc ++ [out], c⟩
          ((⟨PName.step "define regions" i, StateTree.mk (PVal.b sval) sexp
            (saveStepBody (StepBody.region r))⟩ : PName × StateTree) :: tl.map saveStep)
          = restoreLoop cat
              ⟨(acc ++ [⟨PName.step "define regions" c, t.action, sval, sexp,
                StepBody.region r2⟩]) ++ [out], c + 1⟩ (tl.map saveStep) := by
        rw [restoreLoop]
        dsimp only [splitHash2]
        unfold ProcessGroup.addNew
        rw [hfind]
        dsimp only
        rw [hlen, insertAt_append_singleton]
        simp only [StateTree.value, StateTree.expanded]
        simp only [beq_self_eq_true, if_true, mkStepBody]
        rw [hrr]
        dsimp only
        rw [setStep_list acc _ _ out (c + 1) hbeq_acc hbeq_out]
        rw [List.append_assoc]
        rfl
      obtain ⟨news', hloop, hmat⟩ := ih
        (acc ++ [⟨PName.step "define regions" c, t.action, sval, sexp, StepBody.region r2⟩])
        out (c + 1)
        (fun s2 hs2 => hwf s2 (List.mem_cons_of_mem _ hs2)) hout
        (by
          intro a ha
          rcases List.mem_append.mp ha with ha | ha
          · obtain ⟨ka, ia, han, hia⟩ := hacc a ha
            exact ⟨ka, ia, han, Nat.lt_succ_of_lt hia⟩
          · rcases List.mem_singleton.mp ha with rfl
            exact ⟨"define regions", c, rfl, Nat.lt_succ_self c⟩)
      refine ⟨⟨PName.step "define regions" c, t.action, sval, sexp, StepBody.region r2⟩ :: news',
        ?_, ?_⟩
      · rw [List.map_cons]
        simp only [saveStep]
        rw [h1, hloop]
        congr 1
        simp only [ProcessGroup.mk.injEq, List.length_cons]
        constructor
        · simp
        · omega
      · exact List.Forall₂.cons ⟨rfl, rfl, rfl, rfl, hrk, hrv⟩ hmat
    · rw [if_neg hk] at hbodyc
      obtain ⟨ps, hb⟩ := hbodyc
      simp only at hb
      subst hb
      have hkb : (k == "define regions") = false := beq_eq_false_iff_ne.mpr hk
      have h1 : restoreLoop cat ⟨acc ++ [out], c⟩
          ((⟨PName.step k i, StateTree.mk (PVal.b sval) sexp
            (saveStepBody (StepBody.plain ps))⟩ : PName × StateTree) :: tl.map saveStep)
          = restoreLoop cat
              ⟨(acc ++ [⟨PName.step k c, t.action, sval, sexp,
                StepBody.plain t.params⟩]) ++ [out], c + 1⟩ (tl.map saveStep) := by
        rw [restoreLoop]
        dsimp only [splitHash2]
        unfold ProcessGroup.addNew
        rw [hfind]
        dsimp only
        rw [hlen, insertAt_append_singleton]
        simp only [StateTree.value, StateTree.expanded]
        simp only [mkStepBody, hkb, Bool.false_eq_true, if_false]
        rw [setStep_list acc _ _ out (c + 1) hbeq_acc hbeq_out]
        rw [List.append_assoc]
        rfl
      obtain ⟨news', hloop, hmat⟩ := ih
        (acc ++ [⟨PName.step k c, t.action, sval, sexp, StepBody.plain t.params⟩])
        out (c + 1)
        (fun s2 hs2 => hwf s2 (List.mem_cons_of_mem _ hs2)) hout
        (by
          intro a ha
          rcases List.mem_append.mp ha with ha | ha
          · obtain ⟨ka, ia, han, hia⟩ := hacc a ha
            exact ⟨ka, ia, han, Nat.lt_succ_of_lt hia⟩
          · rcases List.mem_singleton.mp ha with rfl
            exact ⟨k, c, rfl, Nat.lt_succ_self c⟩)
      refine ⟨⟨PName.step k c, t.action, sval, sexp, StepBody.plain t.params⟩ :: news',
        ?_, ?_⟩
      · rw [List.map_cons]
        simp only [saveStep]
        rw [h1, hloop]
        congr 1
        simp only [ProcessGroup.mk.injEq, List.length_cons]
        constructor
        · simp
        · omega
      · exact List.Forall₂.cons ⟨rfl, rfl, rfl, rfl, t, hfind, rfl⟩ hmat
lemma find?_output (steps : List Step) (out : Step)
    (hw : ∀ s ∈ steps, ∃ k i, s.name = PName.step k i)
    (hout : out.name = PName.key "output") :
    (steps ++ [out]).find? (fun s2 => s2.name == PName.key "output") = some out := by
  induction steps with
  | nil => exact List.find?_cons_of_pos _ (by simp [hout])
  | cons s tl ih =>
    obtain ⟨k, i, hn⟩ := hw s (List.mem_cons_self _ _)
    have hb : (PName.step k i == PName.key "output") = false := rfl
    rw [List.cons_append, List.find?_cons_of_neg _ (by simp [hn, hb])]
    exact ih (fun s2 hs2 => hw s2 (List.mem_cons_of_mem _ hs2))

/-- Claim C1, amended.  Restoring the pipeline from its own saved state succeeds
and reproduces the ordered step list (same template keys in the same order),
the enabled values, expansion flags, actions, region kinds and the region span
values verbatim; the terminal output step comes back identical, parameters
included; the child parameters of other ordinary steps are reset to the catalog
defaults rather than their saved values, and the running index keeps counting
up (the restored steps carry fresh names). -/
theorem claim1_roundtrip_amended (cat : Catalog) (steps : List Step) (out : Step)
    (c : Nat) (outPs : List (String × PVal))
    (hsteps : ∀ s ∈ steps, WFStep cat s)
    (hout : out.name = PName.key "output")
    (houtBody : out.body = StepBody.plain outPs)
    (hnodup : (outPs.map Prod.fst).Nodup) :
    ∃ news : List Step,
      ProcessGroup.restoreState cat ⟨steps ++ [out], c⟩ (saveGroup ⟨steps ++ [out], c⟩)
        = some ⟨news ++ [out], c + steps.length⟩ ∧
      List.Forall₂ (restoredMatch cat) steps news := by
  obtain ⟨onm, oact, oval, oexp, obody⟩ := out
  simp only at hout houtBody
  subst hout
  subst houtBody
  unfold ProcessGroup.restoreState saveGroup
  simp only [StateTree.children]
  rw [List.map_append]
  have houtpair : [(⟨PName.key "output", oact, oval, oexp, StepBody.plain outPs⟩ : Step)].map
      saveStep = [(PName.key "output",
        StateTree.mk (PVal.b oval) oexp (saveStepBody (StepBody.plain outPs)))] := rfl
  rw [houtpair]
  have hfilter1 : (steps.map saveStep ++ [(PName.key "output",
      StateTree.mk (PVal.b oval) oexp (saveStepBody (StepBody.plain outPs)))]).filter
        (fun c2 => c2.1 != PName.key "output")
      = steps.map saveStep := by
    rw [List.filter_append]
    have hA : (steps.map saveStep).filter (fun c2 => c2.1 != PName.key "output")
        = steps.map saveStep := by
      rw [List.filter_eq_self]
      intro a ha
      obtain ⟨s, hs, ha2⟩ := List.mem_map.mp ha
      obtain ⟨k, i, t, hname, _⟩ := hsteps s hs
      subst ha2
      have hb : (PName.step k i != PName.key "output") = true := rfl
      simp [saveStep, hname, hb]
    have hB : ([(PName.key "output",
        StateTree.mk (PVal.b oval) oexp (saveStepBody (StepBody.plain outPs)))]).filter
          (fun c2 => c2.1 != PName.key "output") = [] := by
      simp
    rw [hA, hB, List.append_nil]
  have hfilter2 : (steps.map saveStep ++ [(PName.key "output",
      StateTree.mk (PVal.b oval) oexp (saveStepBody (StepBody.plain outPs)))]).filter
        (fun c2 => c2.1 == PName.key "output")
      = [(PName.key "output",
          StateTree.mk (PVal.b oval) oexp (saveStepBody (StepBody.plain outPs)))] := by
    rw [List.filter_append]
    have hA : (steps.map saveStep).filter (fun c2 => c2.1 == PName.key "output") = [] := by
      rw [List.filter_eq_nil_iff]
      intro a ha
      obtain ⟨s, hs, ha2⟩ := List.mem_map.mp ha
      obtain ⟨k, i, t, hname, _⟩ := hsteps s hs
      subst ha2
      have hb : (PName.step k i == PName.key "output") = false := rfl
      simp [saveStep, hname, hb]
    have hB : ([(PName.key "output",
        StateTree.mk (PVal.b oval) oexp (saveStepBody (StepBody.plain outPs)))]).filter
          (fun c2 => c2.1 == PName.key "output")
        = [(PName.key "output",
            StateTree.mk (PVal.b oval) oexp (saveStepBody (StepBody.plain outPs)))] := by
      simp
    rw [hA, hB, List.nil_append]
  rw [hfilter1, hfilter2]
  have hfindout : (steps ++ [(⟨PName.key "output", oact, oval, oexp,
      StepBody.plain outPs⟩ : Step)]).find? (fun s2 => s2.name == PName.key "output")
      = some ⟨PName.key "output", oact, oval, oexp, StepBody.plain outPs⟩ :=
    find?_output steps _ (fun s hs => by
      obtain ⟨k, i, t, hname, _⟩ := hsteps s hs
      exact ⟨k, i, hname⟩) rfl
  have hrp : restorePlainParams outPs
      (StateTree.mk (PVal.b oval) oexp (saveStepBody (StepBody.plain outPs))) = outPs := by
    have := restorePlain_self outPs (PVal.b oval) oexp hnodup
    simpa [saveStepBody] using this
  have hbase : mapOpt (fun c2 =>
      match (steps ++ [(⟨PName.key "output", oact, oval, oexp,
          StepBody.plain outPs⟩ : Step)]).find? (fun s2 => s2.name == c2.1) with
      | some s2 => updateStepFromState s2 c2.2
      | none => none)
      [(PName.key "output",
        StateTree.mk (PVal.b oval) oexp (saveStepBody (StepBody.plain outPs)))]
      = some [⟨PName.key "output", oact, oval, oexp, StepBody.plain outPs⟩] := by
    have h0 : (match (steps ++ [(⟨PName.key "output", oact, oval, oexp,
          StepBody.plain outPs⟩ : Step)]).find? (fun s2 => s2.name == PName.key "output") with
        | some s2 => updateStepFromState s2
            (StateTree.mk (PVal.b oval) oexp (saveStepBody (StepBody.plain outPs)))
        | none => none)
        = some ⟨PName.key "output", oact, oval, oexp, StepBody.plain outPs⟩ := by
      rw [hfindout]
      unfold updateStepFromState
      simp only [StateTree.value, StateTree.expanded]
      rw [hrp]
    unfold mapOpt
    rw [h0]
    rfl
  rw [hbase]
  obtain ⟨news, hloop, hmat⟩ := restoreLoop_saved cat steps []
    ⟨PName.key "output", oact, oval, oexp, StepBody.plain outPs⟩ c hsteps rfl
    (by intro a ha; cases ha)
  refine ⟨news, ?_, hmat⟩
  simpa using hloop
/-- Claim C1, corrected part.  Restoring the concrete pipeline from its own
saved state does not reproduce the parameter values of the edited ordinary
step: the smoothing length, saved as 7, comes back as the catalog default 5,
although the pipeline contains a region-definition step with two spans (the
domain of the claim) whose kinds and span values are preserved. -/
theorem claim1_counterexample :
    (gEx.childs.map Step.body)[0]? = some (StepBody.plain [("length", PVal.r 7)]) ∧
    ((ProcessGroup.restoreState catEx gEx (saveGroup gEx)).map
        (fun g => (g.childs.map Step.body)[0]?))
      = some (some (StepBody.plain [("length", PVal.r 5)])) ∧
    PVal.r 5 ≠ PVal.r 7 ∧
    (gEx.childs.map Step.body)[1]? = some (StepBody.region ⟨"baseline", true, true, 2,
      [⟨.span 1 0, .pair 10 20⟩, ⟨.span 1 1, .pair 30 40⟩]⟩) := by
  refine ⟨rfl, rfl, ?_, rfl⟩
  intro h
  injection h with h2
  exact absurd h2 (by norm_num)

/-- Witness for claim C1: the amended round trip at the concrete pipeline. -/
theorem claim1_witness :
    ∃ news : List Step,
      ProcessGroup.restoreState catEx gEx (saveGroup gEx)
        = some ⟨news ++ [outputStepEx], 4⟩ ∧
      List.Forall₂ (restoredMatch catEx) [smoothStepEx, regionStepEx] news := by
  exact claim1_roundtrip_amended catEx [smoothStepEx, regionStepEx] outputStepEx 2
    [("name", PVal.s "untitled")]
    (by
      intro s hs
      rcases List.mem_cons.mp hs with rfl | hs
      · exact ⟨"smooth", 0, ⟨"scp.smooth", [("length", PVal.r 5)]⟩, rfl, rfl, rfl, by
          rw [if_neg (by decide)]
          exact ⟨[("length", PVal.r 7)], rfl⟩⟩
      · rcases List.mem_cons.mp hs with rfl | hs
        · exact ⟨"define regions", 1, ⟨"defineRegion", []⟩, rfl, rfl, rfl, by
            rw [if_pos rfl]
            exact ⟨⟨"baseline", true, true, 2,
              [⟨.span 1 0, .pair 10 20⟩, ⟨.span 1 1, .pair 30 40⟩]⟩, rfl,
              Or.inl (by decide)⟩⟩
        · cases hs)
    rfl rfl (by decide)
end SCPGui
